import Mathlib

/-!
Shallow embedding of pykv's storage engine (`app/async_lru.py` and
`app/async_store.py`).

Wall-clock time is an integer parameter threaded through every
operation; the several `time.time()` calls made inside one Python
operation all stand for that operation's single instant.  The asyncio
locks only serialize concurrent tasks and are modelled away in this
sequential semantics.  The Python dict `AsyncLRUCache.cache` and the
doubly linked list `AsyncLRUCache.dll` always hold the same set of
nodes, so both are represented at once by a single list of nodes
ordered from most-recently used (head) to least-recently used (tail);
the dict's separate insertion order is observable only in the line
order of a compacted WAL, which no property below depends on.
Fractional seconds are dropped together with the float clock: all
timestamps, TTLs and expiry instants are integers.
-/

/-- `AsyncNode` (`async_lru.py`): one cache entry.  Python sets
`expires_at = time.time() + ttl if ttl else None`, so a TTL of `0`
(falsy) yields `None`, i.e. no expiry at all. -/
structure AsyncNode where
  key : String
  value : String
  expires_at : Option Int
  access_time : Int
deriving Repr, DecidableEq

/-- `time.time() + ttl if ttl else None`: Python truthiness maps both
`None` and `0` to `None`. -/
def ttlToExpiry (ttl : Option Int) (now : Int) : Option Int :=
  match ttl with
  | none => none
  | some t => if t = 0 then none else some (now + t)

/-- `AsyncLRUCache`: the dict and the linked list, conflated into one
list of nodes in LRU order, head = most recently used. -/
structure AsyncLRUCache where
  capacity : Nat
  entries : List AsyncNode
deriving Repr, DecidableEq

def nodeKeyIs (k : String) (n : AsyncNode) : Bool := n.key == k

/-- Dict lookup `self.cache[key]`. -/
def cacheLookup (c : AsyncLRUCache) (k : String) : Option AsyncNode :=
  c.entries.find? (nodeKeyIs k)

/-- `AsyncLRUCache._is_expired`: `expires_at is not None and
time.time() > expires_at` (a genuine `None` test, not truthiness). -/
def isExpired (n : AsyncNode) (now : Int) : Bool :=
  match n.expires_at with
  | none => false
  | some e => now > e

/-- `AsyncLRUCache.get`: miss on absent key; lazily remove and miss on
an expired key; otherwise move to front, refresh `access_time` and
return the value. -/
def cacheGet (c : AsyncLRUCache) (k : String) (now : Int) :
    Option String × AsyncLRUCache :=
  match cacheLookup c k with
  | none => (none, c)
  | some n =>
    if isExpired n now then
      (none, { c with entries := c.entries.eraseP (nodeKeyIs k) })
    else
      (some n.value,
       { c with entries :=
          { n with access_time := now } :: c.entries.eraseP (nodeKeyIs k) })

/-- `AsyncLRUCache.get_raw`: like `get` but without touching the LRU
order; used by compaction. -/
def cacheGetRaw (c : AsyncLRUCache) (k : String) (now : Int) :
    Option (String × Option Int) × AsyncLRUCache :=
  match cacheLookup c k with
  | none => (none, c)
  | some n =>
    if isExpired n now then
      (none, { c with entries := c.entries.eraseP (nodeKeyIs k) })
    else (some (n.value, n.expires_at), c)

/-- `AsyncLRUCache.put`.  An existing key is updated in place and moved
to the front.  A new key first evicts the tail when
`len(self.cache) >= self.capacity` (`remove_from_end` returns `None`
on an empty list, in which case nothing is deleted), then is inserted
at the front. -/
def cachePut (c : AsyncLRUCache) (k v : String) (ttl : Option Int) (now : Int) :
    AsyncLRUCache :=
  match cacheLookup c k with
  | some n =>
    { c with entries :=
        { n with value := v, expires_at := ttlToExpiry ttl now, access_time := now }
          :: c.entries.eraseP (nodeKeyIs k) }
  | none =>
    let afterEvict :=
      if c.capacity ≤ c.entries.length then c.entries.dropLast else c.entries
    { c with entries := ⟨k, v, ttlToExpiry ttl now, now⟩ :: afterEvict }

/-- `AsyncLRUCache.delete`. -/
def cacheDelete (c : AsyncLRUCache) (k : String) : Bool × AsyncLRUCache :=
  match cacheLookup c k with
  | none => (false, c)
  | some _ => (true, { c with entries := c.entries.eraseP (nodeKeyIs k) })

/-- `AsyncLRUCache.get_all_keys`. -/
def cacheKeys (c : AsyncLRUCache) : List String :=
  c.entries.map (·.key)

/-- Per-namespace statistics bucket (`namespace_stats[ns]`). -/
structure NsStats where
  cache_hits : Nat
  cache_misses : Nat
  total_keys : Nat
deriving Repr, DecidableEq

/-- The global `stats` dict (the time-valued fields `last_compaction`
and `start_time` play no role in any claim and are omitted). -/
structure StoreStats where
  cache_hits : Nat
  cache_misses : Nat
  evictions : Nat
  log_size : Nat
deriving Repr, DecidableEq

/-- One WAL line as written by `_log_operation` / `compact_log`.  The
Python field `namespace` is spelled `nspace` because `namespace` is a
Lean keyword. -/
structure LogEntry where
  timestamp : Int
  action : String
  key : String
  value : Option String
  ttl : Option Int
  nspace : Option String
deriving Repr, DecidableEq

/-- `AsyncKeyValueStore`: cache, WAL file contents, statistics. -/
structure AsyncKeyValueStore where
  cache : AsyncLRUCache
  wal : List LogEntry
  stats : StoreStats
  namespace_stats : List (String × NsStats)
deriving Repr, DecidableEq

/-- `_make_namespaced_key`: `if namespace:` is a truthiness test, so
`None` and `""` both leave the key bare. -/
def makeNamespacedKey (ns : Option String) (k : String) : String :=
  match ns with
  | some s => if s == "" then k else s ++ ":" ++ k
  | none => k

/-- `full_key.split(":", 1)`: split the character list at the first
`':'`, when there is one.  (Stated over `String.data` so that the
kernel can evaluate it on concrete inputs; `String.splitOn` computes
the same split but does not reduce.) -/
def splitFirstColon : List Char → Option (List Char × List Char)
  | [] => none
  | c :: cs =>
    if c = ':' then some ([], cs)
    else
      match splitFirstColon cs with
      | none => none
      | some p => some (c :: p.1, p.2)

/-- `_parse_namespaced_key`: split at the first `":"` when present. -/
def parseNamespacedKey (fullKey : String) : Option String × String :=
  match splitFirstColon fullKey.data with
  | none => (none, fullKey)
  | some p => (some ⟨p.1⟩, ⟨p.2⟩)

/-- Python's `key.startswith(prefix)`, over the character lists for the
same evaluability reason. -/
def strStartsWith (s pfxStr : String) : Bool :=
  pfxStr.data.isPrefixOf s.data

/-- `ns = namespace or "default"`: truthiness again, so `""` also maps
to `"default"`. -/
def nsLabel : Option String → String
  | none => "default"
  | some s => if s == "" then "default" else s

def nsStatsFind (l : List (String × NsStats)) (ns : String) : Option NsStats :=
  (l.find? (fun p => p.1 == ns)).map (·.2)

/-- `_init_namespace_stats`: insert a zeroed bucket when absent (dict
insertion appends). -/
def initNamespaceStats (l : List (String × NsStats)) (ns : String) :
    List (String × NsStats) :=
  match l.find? (fun p => p.1 == ns) with
  | some _ => l
  | none => l ++ [(ns, ⟨0, 0, 0⟩)]

/-- In-place mutation of one bucket, e.g.
`self.namespace_stats[ns]["cache_hits"] += 1`. -/
def updateNsStats (l : List (String × NsStats)) (ns : String) (f : NsStats → NsStats) :
    List (String × NsStats) :=
  l.map (fun p => if p.1 == ns then (p.1, f p.2) else p)

/-- `AsyncKeyValueStore.size`: note the argument test is `is None`, so
`namespace=""` takes the prefix-counting branch with prefix `":"`. -/
def storeSize (s : AsyncKeyValueStore) (ns : Option String) : Nat :=
  match ns with
  | none => s.cache.entries.length
  | some nsv => (cacheKeys s.cache).countP (fun k => strStartsWith k (nsv ++ ":"))

/-- `_log_operation`: append one record, bump `log_size`. -/
def logOperation (s : AsyncKeyValueStore) (action k : String) (v : Option String)
    (ttl : Option Int) (ns : Option String) (now : Int) : AsyncKeyValueStore :=
  { s with wal := s.wal ++ [⟨now, action, k, v, ttl, ns⟩],
           stats := { s.stats with log_size := s.stats.log_size + 1 } }

/-- `AsyncKeyValueStore.set`: put, log `SET`, then refresh
`namespace_stats[ns].total_keys` from `size(namespace)` on the updated
cache. -/
def storeSet (s : AsyncKeyValueStore) (k v : String) (ttl : Option Int)
    (ns : Option String) (now : Int) : AsyncKeyValueStore :=
  let fullKey := makeNamespacedKey ns k
  let s1 := { s with cache := cachePut s.cache fullKey v ttl now }
  let s2 := logOperation s1 "SET" k (some v) ttl ns now
  let lbl := nsLabel ns
  let s3 := { s2 with namespace_stats := initNamespaceStats s2.namespace_stats lbl }
  let ns4 := updateNsStats s3.namespace_stats lbl
    (fun st => { st with total_keys := storeSize s3 ns })
  { s3 with namespace_stats := ns4 }

/-- `AsyncKeyValueStore.get`: cache get, then hit/miss accounting both
globally and in the namespace bucket. -/
def storeGet (s : AsyncKeyValueStore) (k : String) (ns : Option String) (now : Int) :
    Option String × AsyncKeyValueStore :=
  let fullKey := makeNamespacedKey ns k
  let res := cacheGet s.cache fullKey now
  let lbl := nsLabel ns
  let nstats := initNamespaceStats s.namespace_stats lbl
  match res.1 with
  | some x =>
    let ns2 := updateNsStats nstats lbl
      (fun st => { st with cache_hits := st.cache_hits + 1 })
    (some x,
     { s with cache := res.2,
              stats := { s.stats with cache_hits := s.stats.cache_hits + 1 },
              namespace_stats := ns2 })
  | none =>
    let ns2 := updateNsStats nstats lbl
      (fun st => { st with cache_misses := st.cache_misses + 1 })
    (none,
     { s with cache := res.2,
              stats := { s.stats with cache_misses := s.stats.cache_misses + 1 },
              namespace_stats := ns2 })

/-- `AsyncKeyValueStore.delete`: on success log a `DEL` record (no
value, no ttl) and refresh `total_keys`; on a miss return `False`
without touching the WAL. -/
def storeDelete (s : AsyncKeyValueStore) (k : String) (ns : Option String) (now : Int) :
    Bool × AsyncKeyValueStore :=
  let fullKey := makeNamespacedKey ns k
  let res := cacheDelete s.cache fullKey
  if res.1 then
    let s1 := { s with cache := res.2 }
    let s2 := logOperation s1 "DEL" k none none ns now
    let lbl := nsLabel ns
    let s3 := { s2 with namespace_stats := initNamespaceStats s2.namespace_stats lbl }
    let ns4 := updateNsStats s3.namespace_stats lbl
      (fun st => { st with total_keys := storeSize s3 ns })
    (true, { s3 with namespace_stats := ns4 })
  else (false, s)

/-- `AsyncKeyValueStore.list_namespaces`: collect the parsed namespace
of every stored key containing `":"`, keep the truthy ones, and return
the de-duplicated sorted list (Python builds a `set` and sorts it; any
sort is observationally the same). -/
def listNamespaces (s : AsyncKeyValueStore) : List String :=
  let collected := (cacheKeys s.cache).filterMap fun k =>
    match parseNamespacedKey k with
    | (some nsv, _) => if nsv == "" then none else some nsv
    | (none, _) => none
  collected.dedup.insertionSort (· ≤ ·)

/-- A store as built by `__init__`: empty cache, no WAL records yet,
zeroed statistics. -/
def freshStore (cap : Nat) : AsyncKeyValueStore :=
  ⟨⟨cap, []⟩, [], ⟨0, 0, 0, 0⟩, []⟩

/-- One record of `_recover`'s replay loop.  `if ttl:` is truthy, so a
logged `ttl` of `0` takes the no-TTL branch; with a truthy `ttl` the
remaining TTL `ttl - (now - timestamp)` must be positive or the record
is skipped.  `SET` records written by this program always carry a
value, so the `getD` default is never exercised. -/
def replayStep (now : Int) (c : AsyncLRUCache) (r : LogEntry) : AsyncLRUCache :=
  let fullKey := makeNamespacedKey r.nspace r.key
  if r.action == "SET" then
    match r.ttl with
    | some t =>
      if t == 0 then cachePut c fullKey (r.value.getD "") none now
      else
        let remaining := t - (now - r.timestamp)
        if remaining ≤ 0 then c
        else cachePut c fullKey (r.value.getD "") (some remaining) now
    | none => cachePut c fullKey (r.value.getD "") none now
  else if r.action == "DEL" then (cacheDelete c fullKey).2
  else c

/-- `_recover`: fold the WAL into the fresh store's empty cache. -/
def replayWal (wal : List LogEntry) (now : Int) (cap : Nat) : AsyncLRUCache :=
  wal.foldl (replayStep now) ⟨cap, []⟩

/-- A freshly constructed store after `initialize()` has replayed the
given WAL (the file itself is left as is; `log_size` stays 0, matching
the source). -/
def recoverStore (cap : Nat) (wal : List LogEntry) (now : Int) : AsyncKeyValueStore :=
  { freshStore cap with cache := replayWal wal now cap, wal := wal }

/-- One iteration of `compact_log`'s snapshot loop: a `get_raw` on the
current cache, accumulating `(full_key, value, expires_at)` when the
entry is live (an expired entry is dropped from the cache instead). -/
def compactScanStep (now : Int)
    (acc : AsyncLRUCache × List (String × String × Option Int)) (k : String) :
    AsyncLRUCache × List (String × String × Option Int) :=
  match cacheGetRaw acc.1 k now with
  | (none, c') => (c', acc.2)
  | (some (v, e), c') => (c', acc.2 ++ [(k, v, e)])

/-- The snapshot loop of `compact_log`: one `get_raw` per snapshotted
key. -/
def compactScan (now : Int) (start : AsyncLRUCache) (keys : List String) :
    AsyncLRUCache × List (String × String × Option Int) :=
  keys.foldl (compactScanStep now) (start, [])

/-- `if expires_at:` in `compact_log` is a truthiness test on a float,
so an `expires_at` of exactly `0` counts as "no expiration". -/
def floatTruthy : Option Int → Bool
  | none => false
  | some e => e != 0

/-- One surviving snapshot triple to one compacted `SET` record:
`ttl = max(0, int(expires_at - now))`, skipped when `ttl <= 0`. -/
def compactRecord (now : Int) (entry : String × String × Option Int) :
    Option LogEntry :=
  let nk := parseNamespacedKey entry.1
  if floatTruthy entry.2.2 then
    let ttl := max 0 ((entry.2.2.getD 0) - now)
    if ttl ≤ 0 then none
    else some ⟨now, "SET", nk.2, some entry.2.1, some ttl, nk.1⟩
  else some ⟨now, "SET", nk.2, some entry.2.1, none, nk.1⟩

/-- `AsyncKeyValueStore.compact_log`: snapshot the keys, peek each one,
rewrite the WAL with one `SET` record per survivor and reset
`log_size`.  (The early return when the WAL file does not yet exist,
and the `.tmp`/`.backup` renames, concern only the filesystem; every
state examined below has a WAL.) -/
def compactLog (s : AsyncKeyValueStore) (now : Int) : AsyncKeyValueStore :=
  let scanned := compactScan now s.cache (cacheKeys s.cache)
  let recs := scanned.2.filterMap (compactRecord now)
  { s with cache := scanned.1, wal := recs,
           stats := { s.stats with log_size := recs.length } }

/-- One client operation with its wall-clock instant. -/
inductive StoreOp where
  | set (key value : String) (ttl : Option Int) (ns : Option String) (t : Int)
  | get (key : String) (ns : Option String) (t : Int)
  | del (key : String) (ns : Option String) (t : Int)
deriving Repr, DecidableEq

def applyOp (s : AsyncKeyValueStore) : StoreOp → AsyncKeyValueStore
  | .set k v ttl ns t => storeSet s k v ttl ns t
  | .get k ns t => (storeGet s k ns t).2
  | .del k ns t => (storeDelete s k ns t).2

def runOps (s : AsyncKeyValueStore) (ops : List StoreOp) : AsyncKeyValueStore :=
  ops.foldl applyOp s

/-- The full key written by a `set` operation, if any. -/
def opSetKey : StoreOp → Option String
  | .set k _ _ ns _ => some (makeNamespacedKey ns k)
  | _ => none

/-- Full keys of the `SET` records of a WAL. -/
def walSetKeys (wal : List LogEntry) : List String :=
  (wal.filter (fun r => r.action == "SET")).map
    (fun r => makeNamespacedKey r.nspace r.key)

/-- Value of the last `SET` record for a given full key. -/
def walLastSetValue (wal : List LogEntry) (k : String) : Option String :=
  (wal.reverse.find?
      (fun r => r.action == "SET" && makeNamespacedKey r.nspace r.key == k)).bind
    (·.value)

/-- Strictly unexpired at instant `now` (a node with `expires_at = now`
is still served by `get`, but only strict liveness survives recovery). -/
def nodeLiveStrict (n : AsyncNode) (now : Int) : Prop :=
  n.expires_at = none ∨ ∃ e, n.expires_at = some e ∧ now < e

/-- Reader for one bucket's hit counter (`0` when the bucket does not
exist yet, which is also what a freshly initialized bucket holds). -/
def nsHits (s : AsyncKeyValueStore) (lbl : String) : Nat :=
  ((nsStatsFind s.namespace_stats lbl).map (·.cache_hits)).getD 0

/-- Reader for one bucket's miss counter. -/
def nsMisses (s : AsyncKeyValueStore) (lbl : String) : Nat :=
  ((nsStatsFind s.namespace_stats lbl).map (·.cache_misses)).getD 0

/-- The survival test `compact_log` applies to a live entry's
`expires_at`: kept when it is falsy (absent, or exactly 0), or when
the remaining TTL `expires_at - now` is strictly positive; a live
entry with remaining TTL ≤ 0 is silently dropped from the new WAL. -/
def compactKeeps (now : Int) (e : Option Int) : Bool :=
  match e with
  | none => true
  | some ev => if ev = 0 then true else decide (now < ev)

/-- The `ttl` field `compact_log` writes for a surviving entry:
`max(0, int(expires_at - now))` when `expires_at` is truthy, else
absent. -/
def compactTtl (now : Int) (e : Option Int) : Option Int :=
  if floatTruthy e then some (max 0 ((e.getD 0) - now)) else none

/-- The one `SET` record `compact_log` writes for a surviving entry:
timestamp `now`, the namespace and user key parsed back out of the
full key, the entry's value, and its remaining TTL. -/
def compactRecordFor (now : Int) (n : AsyncNode) : LogEntry :=
  ⟨now, "SET", (parseNamespacedKey n.key).2, some n.value,
   compactTtl now n.expires_at, (parseNamespacedKey n.key).1⟩

/-- Simulation invariant tying a running store to the recovery of its
WAL at instant `T`: the capacity is `cap`; cache keys are distinct and
all have a `SET` record; every strictly live cache entry is found by
replay with the same value and expiry; and a live entry's value is the
value of the last `SET` record for its full key. -/
def recoverInv (s : AsyncKeyValueStore) (T : Int) (cap : Nat) : Prop :=
  s.cache.capacity = cap ∧
  (cacheKeys s.cache).Nodup ∧
  (∀ x ∈ cacheKeys s.cache, x ∈ walSetKeys s.wal) ∧
  (∀ k n, cacheLookup s.cache k = some n → nodeLiveStrict n T →
     ∃ n', cacheLookup (replayWal s.wal T cap) k = some n' ∧
       n'.value = n.value ∧ n'.expires_at = n.expires_at) ∧
  (∀ k n, cacheLookup s.cache k = some n → walLastSetValue s.wal k = some n.value)

/-! ### Basic lemmas about lookup, erasure and key sets -/

theorem nodeKeyIs_iff {k : String} {n : AsyncNode} : nodeKeyIs k n = true ↔ n.key = k := by
  simp [nodeKeyIs]

theorem key_of_lookup {c : AsyncLRUCache} {k : String} {n : AsyncNode}
    (h : cacheLookup c k = some n) : n.key = k := by
  have := List.find?_some h
  simpa [nodeKeyIs] using this

theorem find?_keyIs_eraseP_ne (l : List AsyncNode) (k k' : String) (h : k' ≠ k) :
    (l.eraseP (nodeKeyIs k)).find? (nodeKeyIs k') = l.find? (nodeKeyIs k') := by
  induction l with
  | nil => rfl
  | cons a l ih =>
    by_cases ha : nodeKeyIs k a
    · have ha' : ¬ (nodeKeyIs k' a = true) := by
        simp only [nodeKeyIs_iff] at ha ⊢
        rw [ha]; exact fun hc => h hc.symm
      rw [List.eraseP_cons_of_pos ha, List.find?_cons_of_neg _ ha']
    · rw [List.eraseP_cons_of_neg ha]
      by_cases hb : nodeKeyIs k' a
      · rw [List.find?_cons_of_pos _ hb, List.find?_cons_of_pos _ hb]
      · rw [List.find?_cons_of_neg _ hb, List.find?_cons_of_neg _ hb, ih]

theorem find?_keyIs_eraseP_self {l : List AsyncNode} {k : String}
    (hnd : (l.map (·.key)).Nodup) :
    (l.eraseP (nodeKeyIs k)).find? (nodeKeyIs k) = none := by
  induction l with
  | nil => rfl
  | cons a l ih =>
    simp only [List.map_cons, List.nodup_cons] at hnd
    by_cases ha : nodeKeyIs k a
    · rw [List.eraseP_cons_of_pos ha]
      rw [List.find?_eq_none]
      intro x hx hpx
      exact hnd.1 (by
        rw [nodeKeyIs_iff] at ha hpx
        rw [ha, ← hpx]
        exact List.mem_map_of_mem (·.key) hx)
    · rw [List.eraseP_cons_of_neg ha, List.find?_cons_of_neg _ ha]
      exact ih hnd.2

theorem keys_nodup_eraseP {l : List AsyncNode} {p : AsyncNode → Bool}
    (hnd : (l.map (·.key)).Nodup) : ((l.eraseP p).map (·.key)).Nodup :=
  hnd.sublist ((List.eraseP_sublist l).map (·.key))

theorem length_eraseP_of_find? {l : List AsyncNode} {p : AsyncNode → Bool} {n : AsyncNode}
    (h : l.find? p = some n) : (l.eraseP p).length = l.length - 1 :=
  List.length_eraseP_of_mem (List.mem_of_find?_eq_some h) (List.find?_some h)

/-! ### Shape lemmas for the cache operations -/

theorem cachePut_capacity (c : AsyncLRUCache) (k v : String) (ttl : Option Int) (now : Int) :
    (cachePut c k v ttl now).capacity = c.capacity := by
  unfold cachePut
  cases cacheLookup c k <;> rfl

theorem cacheGet_capacity (c : AsyncLRUCache) (k : String) (now : Int) :
    (cacheGet c k now).2.capacity = c.capacity := by
  unfold cacheGet
  cases cacheLookup c k with
  | none => rfl
  | some n => by_cases h : isExpired n now <;> simp [h]

theorem cacheDelete_capacity (c : AsyncLRUCache) (k : String) :
    (cacheDelete c k).2.capacity = c.capacity := by
  unfold cacheDelete
  cases cacheLookup c k <;> rfl

theorem cacheLookup_put_self (c : AsyncLRUCache) (k v : String) (ttl : Option Int) (now : Int) :
    cacheLookup (cachePut c k v ttl now) k = some ⟨k, v, ttlToExpiry ttl now, now⟩ := by
  unfold cachePut
  cases h : cacheLookup c k with
  | some n =>
    have hk : n.key = k := key_of_lookup h
    simp [cacheLookup, List.find?_cons_of_pos, nodeKeyIs, hk]
  | none =>
    simp [cacheLookup, List.find?_cons_of_pos, nodeKeyIs]

/-- `find?` over the key predicate decides key membership. -/
theorem lookup_isSome_iff_mem_keys {c : AsyncLRUCache} {k : String} :
    (cacheLookup c k).isSome ↔ k ∈ cacheKeys c := by
  simp only [cacheLookup, cacheKeys, List.find?_isSome, nodeKeyIs, beq_iff_eq, List.mem_map]

theorem lookup_none_iff_not_mem_keys {c : AsyncLRUCache} {k : String} :
    cacheLookup c k = none ↔ k ∉ cacheKeys c := by
  constructor
  · intro h hmem
    have := lookup_isSome_iff_mem_keys.mpr hmem
    rw [h] at this
    exact absurd this (by simp)
  · intro h
    cases hc : cacheLookup c k with
    | none => rfl
    | some n => exact absurd (lookup_isSome_iff_mem_keys.mp (by rw [hc]; rfl)) h

/-- A `put` without eviction (the key is already present, or there is
spare capacity) leaves every other key's entry untouched. -/
theorem cacheLookup_put_ne (c : AsyncLRUCache) (k v : String) (ttl : Option Int)
    (now : Int) (k' : String) (hne : k' ≠ k)
    (hsafe : (cacheLookup c k).isSome ∨ c.entries.length < c.capacity) :
    cacheLookup (cachePut c k v ttl now) k' = cacheLookup c k' := by
  cases h : cacheLookup c k with
  | some n =>
    have hk : n.key = k := key_of_lookup h
    have hk' : ¬ (nodeKeyIs k' ⟨n.key, v, ttlToExpiry ttl now, now⟩ = true) := by
      simp only [nodeKeyIs_iff]
      exact fun hc => hne (hk ▸ hc.symm)
    rw [cacheLookup] at h
    simp only [cachePut, cacheLookup, h]
    rw [List.find?_cons_of_neg _ hk', find?_keyIs_eraseP_ne _ _ _ hne]
  | none =>
    have hlt : ¬ c.capacity ≤ c.entries.length := by
      rcases hsafe with hs | hs
      · rw [h] at hs; simp at hs
      · omega
    have hk' : ¬ (nodeKeyIs k' ⟨k, v, ttlToExpiry ttl now, now⟩ = true) := by
      simp only [nodeKeyIs_iff]
      exact fun hc => hne hc.symm
    rw [cacheLookup] at h
    simp only [cachePut, cacheLookup, h, hlt, if_false]
    rw [List.find?_cons_of_neg _ hk']

/-- Keys of a cache after `put`: the new key plus a subset of the old
keys. -/
theorem keys_put_subset (c : AsyncLRUCache) (k v : String) (ttl : Option Int) (now : Int) :
    ∀ x ∈ cacheKeys (cachePut c k v ttl now), x = k ∨ x ∈ cacheKeys c := by
  intro x hx
  cases h : cacheLookup c k with
  | some n =>
    simp only [cachePut, h, cacheKeys, List.map_cons, List.mem_cons] at hx
    rcases hx with hx | hx
    · left; rw [hx]; exact key_of_lookup h
    · right
      exact (List.eraseP_sublist c.entries |>.map (·.key)).mem hx
  | none =>
    simp only [cachePut, h, cacheKeys, List.map_cons, List.mem_cons] at hx
    rcases hx with hx | hx
    · left; exact hx
    · right
      by_cases hc : c.capacity ≤ c.entries.length <;> simp only [hc, if_true, if_false] at hx
      · exact ((List.dropLast_sublist c.entries).map (·.key)).mem hx
      · exact hx

theorem keys_nodup_put (c : AsyncLRUCache) (k v : String) (ttl : Option Int) (now : Int)
    (hnd : (cacheKeys c).Nodup) : (cacheKeys (cachePut c k v ttl now)).Nodup := by
  cases h : cacheLookup c k with
  | some n =>
    simp only [cachePut, h, cacheKeys, List.map_cons, List.nodup_cons]
    refine ⟨?_, keys_nodup_eraseP hnd⟩
    intro hmem
    have hk : n.key = k := key_of_lookup h
    simp only [hk] at hmem
    have hnone := find?_keyIs_eraseP_self (l := c.entries) (k := k) hnd
    rw [List.find?_eq_none] at hnone
    simp only [List.mem_map] at hmem
    obtain ⟨y, hy, hyk⟩ := hmem
    exact hnone y hy (by simp [nodeKeyIs, hyk])
  | none =>
    simp only [cachePut, h, cacheKeys, List.map_cons, List.nodup_cons]
    have hnotin : k ∉ cacheKeys c := by
      rw [← lookup_none_iff_not_mem_keys]; exact h
    by_cases hc : c.capacity ≤ c.entries.length <;> simp only [hc, if_true, if_false]
    · refine ⟨fun hmem => hnotin ?_, hnd.sublist ((List.dropLast_sublist c.entries).map (·.key))⟩
      exact ((List.dropLast_sublist c.entries).map (·.key)).mem hmem
    · exact ⟨hnotin, hnd⟩

/-! ### Branch equations for the cache operations -/

theorem cacheGet_eq_none {c : AsyncLRUCache} {k : String} (now : Int)
    (h : cacheLookup c k = none) : cacheGet c k now = (none, c) := by
  unfold cacheGet; rw [h]

theorem cacheGet_eq_expired {c : AsyncLRUCache} {k : String} {n : AsyncNode} {now : Int}
    (h : cacheLookup c k = some n) (he : isExpired n now = true) :
    cacheGet c k now = (none, ⟨c.capacity, c.entries.eraseP (nodeKeyIs k)⟩) := by
  unfold cacheGet; rw [h]; simp [he]

theorem cacheGet_eq_live {c : AsyncLRUCache} {k : String} {n : AsyncNode} {now : Int}
    (h : cacheLookup c k = some n) (he : isExpired n now = false) :
    cacheGet c k now =
      (some n.value,
       ⟨c.capacity,
        ⟨n.key, n.value, n.expires_at, now⟩ :: c.entries.eraseP (nodeKeyIs k)⟩) := by
  unfold cacheGet; rw [h]; simp [he]

theorem cacheGetRaw_eq_none {c : AsyncLRUCache} {k : String} (now : Int)
    (h : cacheLookup c k = none) : cacheGetRaw c k now = (none, c) := by
  unfold cacheGetRaw; rw [h]

theorem cacheGetRaw_eq_expired {c : AsyncLRUCache} {k : String} {n : AsyncNode} {now : Int}
    (h : cacheLookup c k = some n) (he : isExpired n now = true) :
    cacheGetRaw c k now = (none, ⟨c.capacity, c.entries.eraseP (nodeKeyIs k)⟩) := by
  unfold cacheGetRaw; rw [h]; simp [he]

theorem cacheGetRaw_eq_live {c : AsyncLRUCache} {k : String} {n : AsyncNode} {now : Int}
    (h : cacheLookup c k = some n) (he : isExpired n now = false) :
    cacheGetRaw c k now = (some (n.value, n.expires_at), c) := by
  unfold cacheGetRaw; rw [h]; simp [he]

theorem cachePut_eq_update {c : AsyncLRUCache} {k : String} {n : AsyncNode}
    (v : String) (ttl : Option Int) (now : Int) (h : cacheLookup c k = some n) :
    cachePut c k v ttl now =
      ⟨c.capacity, ⟨n.key, v, ttlToExpiry ttl now, now⟩ :: c.entries.eraseP (nodeKeyIs k)⟩ := by
  unfold cachePut; rw [h]

theorem cachePut_eq_insert {c : AsyncLRUCache} {k : String}
    (v : String) (ttl : Option Int) (now : Int) (h : cacheLookup c k = none)
    (hroom : ¬ c.capacity ≤ c.entries.length) :
    cachePut c k v ttl now =
      ⟨c.capacity, ⟨k, v, ttlToExpiry ttl now, now⟩ :: c.entries⟩ := by
  unfold cachePut; rw [h]; simp [hroom]

theorem cachePut_eq_evict {c : AsyncLRUCache} {k : String}
    (v : String) (ttl : Option Int) (now : Int) (h : cacheLookup c k = none)
    (hfull : c.capacity ≤ c.entries.length) :
    cachePut c k v ttl now =
      ⟨c.capacity, ⟨k, v, ttlToExpiry ttl now, now⟩ :: c.entries.dropLast⟩ := by
  unfold cachePut; rw [h]; simp [hfull]

theorem cacheDelete_eq_none {c : AsyncLRUCache} {k : String}
    (h : cacheLookup c k = none) : cacheDelete c k = (false, c) := by
  unfold cacheDelete; rw [h]

theorem cacheDelete_eq_some {c : AsyncLRUCache} {k : String} {n : AsyncNode}
    (h : cacheLookup c k = some n) :
    cacheDelete c k = (true, ⟨c.capacity, c.entries.eraseP (nodeKeyIs k)⟩) := by
  unfold cacheDelete; rw [h]

theorem cacheKeys_mk (cap : Nat) (l : List AsyncNode) :
    cacheKeys ⟨cap, l⟩ = l.map (·.key) := rfl

theorem cacheLookup_mk (cap : Nat) (l : List AsyncNode) (k : String) :
    cacheLookup ⟨cap, l⟩ k = l.find? (nodeKeyIs k) := rfl

/-! ### Lemmas for `cacheGet` and `cacheDelete` -/

theorem cacheGet_fst (c : AsyncLRUCache) (k : String) (now : Int) :
    (cacheGet c k now).1 =
      match cacheLookup c k with
      | none => none
      | some n => if isExpired n now then none else some n.value := by
  cases h : cacheLookup c k with
  | none => rw [cacheGet_eq_none now h]
  | some n =>
    cases he : isExpired n now
    · rw [cacheGet_eq_live h he]; simp [he]
    · rw [cacheGet_eq_expired h he]; simp [he]

theorem keys_get_sublist (c : AsyncLRUCache) (k : String) (now : Int) :
    ∀ x ∈ cacheKeys (cacheGet c k now).2, x ∈ cacheKeys c := by
  intro x hx
  cases h : cacheLookup c k with
  | none => rw [cacheGet_eq_none now h] at hx; exact hx
  | some n =>
    cases he : isExpired n now
    · rw [cacheGet_eq_live h he] at hx
      simp only [cacheKeys, List.map_cons, List.mem_cons, List.mem_map] at hx ⊢
      rcases hx with hx | hx
      · have hm : n ∈ c.entries := List.mem_of_find?_eq_some h
        exact ⟨n, hm, hx.symm⟩
      · obtain ⟨y, hy, hyk⟩ := hx
        exact ⟨y, List.Sublist.mem hy (List.eraseP_sublist c.entries), hyk⟩
    · rw [cacheGet_eq_expired h he] at hx
      simp only [cacheKeys, List.mem_map] at hx ⊢
      obtain ⟨y, hy, hyk⟩ := hx
      exact ⟨y, List.Sublist.mem hy (List.eraseP_sublist c.entries), hyk⟩

theorem keys_nodup_get (c : AsyncLRUCache) (k : String) (now : Int)
    (hnd : (cacheKeys c).Nodup) : (cacheKeys (cacheGet c k now).2).Nodup := by
  cases h : cacheLookup c k with
  | none => rw [cacheGet_eq_none now h]; exact hnd
  | some n =>
    cases he : isExpired n now
    · rw [cacheGet_eq_live h he]
      simp only [cacheKeys, List.map_cons, List.nodup_cons]
      refine ⟨?_, keys_nodup_eraseP hnd⟩
      have hk : n.key = k := key_of_lookup h
      show n.key ∉ _
      simp only [hk]
      intro hmem
      have hnone := find?_keyIs_eraseP_self (l := c.entries) (k := k) hnd
      rw [List.find?_eq_none] at hnone
      simp only [List.mem_map] at hmem
      obtain ⟨y, hy, hyk⟩ := hmem
      exact hnone y hy (by simp [nodeKeyIs, hyk])
    · rw [cacheGet_eq_expired h he]
      exact keys_nodup_eraseP hnd

/-- Whatever `get` does to the cache, every surviving entry keeps its
value and expiry (only `access_time` and the LRU order may change). -/
theorem cacheGet_snd_lookup (c : AsyncLRUCache) (k : String) (now : Int) (k' : String)
    (hnd : (cacheKeys c).Nodup) {n' : AsyncNode}
    (h' : cacheLookup (cacheGet c k now).2 k' = some n') :
    ∃ n, cacheLookup c k' = some n ∧ n'.value = n.value ∧ n'.expires_at = n.expires_at := by
  cases h : cacheLookup c k with
  | none =>
    rw [cacheGet_eq_none now h] at h'
    exact ⟨n', h', rfl, rfl⟩
  | some n =>
    cases he : isExpired n now
    · rw [cacheGet_eq_live h he] at h'
      simp only [cacheLookup] at h'
      by_cases hk' : k' = k
      · subst hk'
        have hk : n.key = k' := key_of_lookup h
        rw [List.find?_cons_of_pos _ (by simp [nodeKeyIs, hk])] at h'
        cases h'
        exact ⟨n, h, rfl, rfl⟩
      · have hk : n.key = k := key_of_lookup h
        have hneg : ¬ (nodeKeyIs k' (⟨n.key, n.value, n.expires_at, now⟩ : AsyncNode) = true) := by
          simp only [nodeKeyIs_iff]
          rw [hk]
          exact fun hc => hk' hc.symm
        rw [List.find?_cons_of_neg _ hneg, find?_keyIs_eraseP_ne _ _ _ hk'] at h'
        exact ⟨n', h', rfl, rfl⟩
    · rw [cacheGet_eq_expired h he] at h'
      simp only [cacheLookup] at h'
      by_cases hk' : k' = k
      · subst hk'
        rw [find?_keyIs_eraseP_self hnd] at h'
        cases h'
      · rw [find?_keyIs_eraseP_ne _ _ _ hk'] at h'
        exact ⟨n', h', rfl, rfl⟩

theorem cacheDelete_fst (c : AsyncLRUCache) (k : String) :
    (cacheDelete c k).1 = (cacheLookup c k).isSome := by
  cases h : cacheLookup c k with
  | none => simp [cacheDelete_eq_none h, h]
  | some n => simp [cacheDelete_eq_some h, h]

theorem cacheDelete_lookup_self (c : AsyncLRUCache) (k : String)
    (hnd : (cacheKeys c).Nodup) :
    cacheLookup (cacheDelete c k).2 k = none := by
  cases h : cacheLookup c k with
  | none => rw [cacheDelete_eq_none h]; exact h
  | some n =>
    rw [cacheDelete_eq_some h]
    simp only [cacheLookup]
    exact find?_keyIs_eraseP_self hnd

theorem cacheDelete_lookup_ne (c : AsyncLRUCache) (k k' : String) (hne : k' ≠ k) :
    cacheLookup (cacheDelete c k).2 k' = cacheLookup c k' := by
  cases h : cacheLookup c k with
  | none => rw [cacheDelete_eq_none h]
  | some n =>
    rw [cacheDelete_eq_some h]
    simp only [cacheLookup]
    exact find?_keyIs_eraseP_ne _ _ _ hne

theorem keys_delete_sublist (c : AsyncLRUCache) (k : String) :
    ∀ x ∈ cacheKeys (cacheDelete c k).2, x ∈ cacheKeys c := by
  intro x hx
  cases h : cacheLookup c k with
  | none => rw [cacheDelete_eq_none h] at hx; exact hx
  | some n =>
    rw [cacheDelete_eq_some h] at hx
    simp only [cacheKeys, List.mem_map] at hx ⊢
    obtain ⟨y, hy, hyk⟩ := hx
    exact ⟨y, List.Sublist.mem hy (List.eraseP_sublist c.entries), hyk⟩

theorem keys_nodup_delete (c : AsyncLRUCache) (k : String)
    (hnd : (cacheKeys c).Nodup) : (cacheKeys (cacheDelete c k).2).Nodup := by
  cases h : cacheLookup c k with
  | none => rw [cacheDelete_eq_none h]; exact hnd
  | some n => rw [cacheDelete_eq_some h]; exact keys_nodup_eraseP hnd

/-! ### Store-level projections -/

theorem storeSet_cache (s : AsyncKeyValueStore) (k v : String) (ttl : Option Int)
    (ns : Option String) (now : Int) :
    (storeSet s k v ttl ns now).cache = cachePut s.cache (makeNamespacedKey ns k) v ttl now := rfl

theorem storeSet_wal (s : AsyncKeyValueStore) (k v : String) (ttl : Option Int)
    (ns : Option String) (now : Int) :
    (storeSet s k v ttl ns now).wal = s.wal ++ [⟨now, "SET", k, some v, ttl, ns⟩] := rfl

theorem storeGet_cache (s : AsyncKeyValueStore) (k : String) (ns : Option String) (now : Int) :
    ((storeGet s k ns now).2).cache = (cacheGet s.cache (makeNamespacedKey ns k) now).2 := by
  simp only [storeGet]
  cases h : (cacheGet s.cache (makeNamespacedKey ns k) now).1 <;> simp [h]

theorem storeGet_fst (s : AsyncKeyValueStore) (k : String) (ns : Option String) (now : Int) :
    (storeGet s k ns now).1 = (cacheGet s.cache (makeNamespacedKey ns k) now).1 := by
  simp only [storeGet]
  cases h : (cacheGet s.cache (makeNamespacedKey ns k) now).1 <;> simp [h]

theorem storeGet_wal (s : AsyncKeyValueStore) (k : String) (ns : Option String) (now : Int) :
    ((storeGet s k ns now).2).wal = s.wal := by
  simp only [storeGet]
  cases h : (cacheGet s.cache (makeNamespacedKey ns k) now).1 <;> simp [h]

theorem storeDelete_fst (s : AsyncKeyValueStore) (k : String) (ns : Option String) (now : Int) :
    (storeDelete s k ns now).1 = (cacheDelete s.cache (makeNamespacedKey ns k)).1 := by
  simp only [storeDelete]
  cases h : cacheLookup s.cache (makeNamespacedKey ns k) with
  | none => rw [cacheDelete_eq_none h]; simp
  | some n => rw [cacheDelete_eq_some h]; simp

theorem storeDelete_cache (s : AsyncKeyValueStore) (k : String) (ns : Option String)
    (now : Int) :
    ((storeDelete s k ns now).2).cache = (cacheDelete s.cache (makeNamespacedKey ns k)).2 := by
  simp only [storeDelete]
  cases h : cacheLookup s.cache (makeNamespacedKey ns k) with
  | none => rw [cacheDelete_eq_none h]; simp
  | some n => rw [cacheDelete_eq_some h]; simp [logOperation]

theorem storeDelete_wal (s : AsyncKeyValueStore) (k : String) (ns : Option String)
    (now : Int) :
    ((storeDelete s k ns now).2).wal =
      if (cacheDelete s.cache (makeNamespacedKey ns k)).1
      then s.wal ++ [⟨now, "DEL", k, none, none, ns⟩] else s.wal := by
  simp only [storeDelete]
  cases h : cacheLookup s.cache (makeNamespacedKey ns k) with
  | none => rw [cacheDelete_eq_none h]; simp
  | some n => rw [cacheDelete_eq_some h]; simp [logOperation]

/-! ### Size bound (claim C2) -/

theorem cachePut_length_le (c : AsyncLRUCache) (k v : String) (ttl : Option Int) (now : Int)
    (hcap : 1 ≤ c.capacity) (hlen : c.entries.length ≤ c.capacity) :
    (cachePut c k v ttl now).entries.length ≤ c.capacity := by
  cases h : cacheLookup c k with
  | some n =>
    rw [cachePut_eq_update v ttl now h]
    have hm : n ∈ c.entries := List.mem_of_find?_eq_some h
    have hp : nodeKeyIs k n = true := List.find?_some h
    have hlen1 : 1 ≤ c.entries.length := List.length_pos.mpr (List.ne_nil_of_mem hm)
    have herase := List.length_eraseP_of_mem hm hp
    show ((⟨n.key, v, ttlToExpiry ttl now, now⟩ : AsyncNode)
      :: c.entries.eraseP (nodeKeyIs k)).length ≤ c.capacity
    rw [List.length_cons, herase]
    omega
  | none =>
    by_cases hfull : c.capacity ≤ c.entries.length
    · rw [cachePut_eq_evict v ttl now h hfull]
      have hne : c.entries ≠ [] := by
        intro hnil
        rw [hnil] at hfull
        simp at hfull
        omega
      have hlen1 : 1 ≤ c.entries.length := List.length_pos.mpr hne
      show ((⟨k, v, ttlToExpiry ttl now, now⟩ : AsyncNode)
        :: c.entries.dropLast).length ≤ c.capacity
      rw [List.length_cons, List.length_dropLast]
      omega
    · rw [cachePut_eq_insert v ttl now h hfull]
      show ((⟨k, v, ttlToExpiry ttl now, now⟩ : AsyncNode) :: c.entries).length ≤ c.capacity
      rw [List.length_cons]
      omega

theorem cacheGet_length_le (c : AsyncLRUCache) (k : String) (now : Int)
    (hlen : c.entries.length ≤ c.capacity) :
    (cacheGet c k now).2.entries.length ≤ c.capacity := by
  cases h : cacheLookup c k with
  | none => rw [cacheGet_eq_none now h]; exact hlen
  | some n =>
    have hm : n ∈ c.entries := List.mem_of_find?_eq_some h
    have hp : nodeKeyIs k n = true := List.find?_some h
    have herase := List.length_eraseP_of_mem hm hp
    have hlen1 : 1 ≤ c.entries.length := List.length_pos.mpr (List.ne_nil_of_mem hm)
    cases he : isExpired n now
    · rw [cacheGet_eq_live h he]
      show ((⟨n.key, n.value, n.expires_at, now⟩ : AsyncNode)
        :: c.entries.eraseP (nodeKeyIs k)).length ≤ c.capacity
      rw [List.length_cons, herase]
      omega
    · rw [cacheGet_eq_expired h he]
      show (c.entries.eraseP (nodeKeyIs k)).length ≤ c.capacity
      rw [herase]
      omega

theorem cacheDelete_length_le (c : AsyncLRUCache) (k : String)
    (hlen : c.entries.length ≤ c.capacity) :
    (cacheDelete c k).2.entries.length ≤ c.capacity := by
  cases h : cacheLookup c k with
  | none => rw [cacheDelete_eq_none h]; exact hlen
  | some n =>
    rw [cacheDelete_eq_some h]
    show (c.entries.eraseP (nodeKeyIs k)).length ≤ c.capacity
    have := (List.eraseP_sublist (p := nodeKeyIs k) c.entries).length_le
    omega

theorem applyOp_capacity (s : AsyncKeyValueStore) (op : StoreOp) :
    (applyOp s op).cache.capacity = s.cache.capacity := by
  cases op with
  | set k v ttl ns t => rw [applyOp, storeSet_cache, cachePut_capacity]
  | get k ns t => rw [applyOp, storeGet_cache, cacheGet_capacity]
  | del k ns t => rw [applyOp, storeDelete_cache, cacheDelete_capacity]

theorem applyOp_length_le (s : AsyncKeyValueStore) (op : StoreOp)
    (hcap : 1 ≤ s.cache.capacity)
    (hlen : s.cache.entries.length ≤ s.cache.capacity) :
    (applyOp s op).cache.entries.length ≤ s.cache.capacity := by
  cases op with
  | set k v ttl ns t =>
    rw [applyOp, storeSet_cache]
    exact cachePut_length_le _ _ _ _ _ hcap hlen
  | get k ns t =>
    rw [applyOp, storeGet_cache]
    exact cacheGet_length_le _ _ _ hlen
  | del k ns t =>
    rw [applyOp, storeDelete_cache]
    exact cacheDelete_length_le _ _ hlen

/-! ### Namespace statistics bookkeeping -/

theorem nsStatsFind_init_self (l : List (String × NsStats)) (lbl : String) :
    nsStatsFind (initNamespaceStats l lbl) lbl =
      some ((nsStatsFind l lbl).getD ⟨0, 0, 0⟩) := by
  unfold initNamespaceStats nsStatsFind
  cases h : l.find? (fun p => p.1 == lbl) with
  | some st => simp [h]
  | none => simp [h]

theorem nsStatsFind_update_self (l : List (String × NsStats)) (lbl : String)
    (f : NsStats → NsStats) :
    nsStatsFind (updateNsStats l lbl f) lbl = (nsStatsFind l lbl).map f := by
  unfold updateNsStats nsStatsFind
  induction l with
  | nil => rfl
  | cons p l ih =>
    by_cases hp : p.1 = lbl
    · simp [hp]
    · have hp' : (p.1 == lbl) = false := by simp [hp]
      simp only [List.map_cons, hp', if_false]
      rw [List.find?_cons_of_neg _ (by simp [hp]), List.find?_cons_of_neg _ (by simp [hp])]
      exact ih

theorem nsStatsFind_update_of_init (l : List (String × NsStats)) (lbl : String)
    (f : NsStats → NsStats) :
    nsStatsFind (updateNsStats (initNamespaceStats l lbl) lbl f) lbl =
      some (f ((nsStatsFind l lbl).getD ⟨0, 0, 0⟩)) := by
  rw [nsStatsFind_update_self, nsStatsFind_init_self]
  rfl

theorem storeGet_eq_miss (s : AsyncKeyValueStore) (k : String) (ns : Option String)
    (now : Int) (h : (cacheGet s.cache (makeNamespacedKey ns k) now).1 = none) :
    storeGet s k ns now =
      (none,
       { cache := (cacheGet s.cache (makeNamespacedKey ns k) now).2, wal := s.wal,
         stats := { s.stats with cache_misses := s.stats.cache_misses + 1 },
         namespace_stats :=
           updateNsStats (initNamespaceStats s.namespace_stats (nsLabel ns)) (nsLabel ns)
             (fun st => { st with cache_misses := st.cache_misses + 1 }) }) := by
  simp only [storeGet, h]

theorem storeGet_eq_hit (s : AsyncKeyValueStore) (k : String) (ns : Option String)
    (now : Int) (x : String)
    (h : (cacheGet s.cache (makeNamespacedKey ns k) now).1 = some x) :
    storeGet s k ns now =
      (some x,
       { cache := (cacheGet s.cache (makeNamespacedKey ns k) now).2, wal := s.wal,
         stats := { s.stats with cache_hits := s.stats.cache_hits + 1 },
         namespace_stats :=
           updateNsStats (initNamespaceStats s.namespace_stats (nsLabel ns)) (nsLabel ns)
             (fun st => { st with cache_hits := st.cache_hits + 1 }) }) := by
  simp only [storeGet, h]

theorem nsBucket_bump (l : List (String × NsStats)) (lbl : String) (f : NsStats → NsStats)
    (g : NsStats → Nat) (hz : g ⟨0, 0, 0⟩ = 0) (hfg : ∀ st, g (f st) = g st + 1) :
    ((nsStatsFind (updateNsStats (initNamespaceStats l lbl) lbl f) lbl).map g).getD 0 =
      ((nsStatsFind l lbl).map g).getD 0 + 1 := by
  rw [nsStatsFind_update_of_init]
  cases nsStatsFind l lbl <;> simp [hfg, hz]

theorem nsBucket_keep (l : List (String × NsStats)) (lbl : String) (f : NsStats → NsStats)
    (g : NsStats → Nat) (hz : g ⟨0, 0, 0⟩ = 0) (hfg : ∀ st, g (f st) = g st) :
    ((nsStatsFind (updateNsStats (initNamespaceStats l lbl) lbl f) lbl).map g).getD 0 =
      ((nsStatsFind l lbl).map g).getD 0 := by
  rw [nsStatsFind_update_of_init]
  cases nsStatsFind l lbl <;> simp [hfg, hz]

/-- **C6** (confirmed): `AsyncKeyValueStore.get` semantics.  An absent
full key returns absent and bumps the global and per-namespace miss
counters; a present but expired entry is removed in the same step,
counted as a miss, and absent is returned; a present live entry is
moved to the head of the LRU order with `access_time` refreshed, the
hit counters are bumped, and the stored value is returned. -/
theorem claim_C6_get_semantics (s : AsyncKeyValueStore) (k : String) (ns : Option String)
    (now : Int) (hnd : (cacheKeys s.cache).Nodup) :
    (cacheLookup s.cache (makeNamespacedKey ns k) = none →
       (storeGet s k ns now).1 = none ∧
       ((storeGet s k ns now).2).cache = s.cache ∧
       ((storeGet s k ns now).2).stats.cache_misses = s.stats.cache_misses + 1 ∧
       ((storeGet s k ns now).2).stats.cache_hits = s.stats.cache_hits ∧
       nsMisses ((storeGet s k ns now).2) (nsLabel ns) = nsMisses s (nsLabel ns) + 1 ∧
       nsHits ((storeGet s k ns now).2) (nsLabel ns) = nsHits s (nsLabel ns)) ∧
    (∀ n, cacheLookup s.cache (makeNamespacedKey ns k) = some n → isExpired n now = true →
       (storeGet s k ns now).1 = none ∧
       cacheLookup ((storeGet s k ns now).2).cache (makeNamespacedKey ns k) = none ∧
       ((storeGet s k ns now).2).stats.cache_misses = s.stats.cache_misses + 1 ∧
       ((storeGet s k ns now).2).stats.cache_hits = s.stats.cache_hits ∧
       nsMisses ((storeGet s k ns now).2) (nsLabel ns) = nsMisses s (nsLabel ns) + 1) ∧
    (∀ n, cacheLookup s.cache (makeNamespacedKey ns k) = some n → isExpired n now = false →
       (storeGet s k ns now).1 = some n.value ∧
       ((storeGet s k ns now).2).cache.entries.head? =
         some ⟨n.key, n.value, n.expires_at, now⟩ ∧
       ((storeGet s k ns now).2).stats.cache_hits = s.stats.cache_hits + 1 ∧
       ((storeGet s k ns now).2).stats.cache_misses = s.stats.cache_misses ∧
       nsHits ((storeGet s k ns now).2) (nsLabel ns) = nsHits s (nsLabel ns) + 1) := by
  refine ⟨?_, ?_, ?_⟩
  · intro h
    have hc := cacheGet_eq_none (c := s.cache) now h
    have hfst : (cacheGet s.cache (makeNamespacedKey ns k) now).1 = none := by rw [hc]
    rw [storeGet_eq_miss s k ns now hfst]
    refine ⟨rfl, by rw [hc], rfl, rfl, ?_, ?_⟩
    · simp only [nsMisses]
      exact nsBucket_bump s.namespace_stats (nsLabel ns) _ (·.cache_misses) rfl (fun st => rfl)
    · simp only [nsHits]
      exact nsBucket_keep s.namespace_stats (nsLabel ns) _ (·.cache_hits) rfl (fun st => rfl)
  · intro n h he
    have hc := cacheGet_eq_expired h he
    have hfst : (cacheGet s.cache (makeNamespacedKey ns k) now).1 = none := by rw [hc]
    rw [storeGet_eq_miss s k ns now hfst]
    refine ⟨rfl, ?_, rfl, rfl, ?_⟩
    · show cacheLookup (cacheGet s.cache (makeNamespacedKey ns k) now).2
        (makeNamespacedKey ns k) = none
      rw [hc]
      simp only [cacheLookup]
      exact find?_keyIs_eraseP_self hnd
    · simp only [nsMisses]
      exact nsBucket_bump s.namespace_stats (nsLabel ns) _ (·.cache_misses) rfl (fun st => rfl)
  · intro n h he
    have hc := cacheGet_eq_live h he
    have hfst : (cacheGet s.cache (makeNamespacedKey ns k) now).1 = some n.value := by rw [hc]
    rw [storeGet_eq_hit s k ns now n.value hfst]
    refine ⟨rfl, ?_, rfl, rfl, ?_⟩
    · show (cacheGet s.cache (makeNamespacedKey ns k) now).2.entries.head? =
        some ⟨n.key, n.value, n.expires_at, now⟩
      rw [hc]
      rfl
    · simp only [nsHits]
      exact nsBucket_bump s.namespace_stats (nsLabel ns) _ (·.cache_hits) rfl (fun st => rfl)

/-- Witness for C6 at a concrete input: a fresh store missing key `"k"`. -/
theorem claim_C6_witness :
    (storeGet (freshStore 2) "k" none 0).1 = none ∧
    ((storeGet (freshStore 2) "k" none 0).2).stats.cache_misses = 1 := by
  have h := (claim_C6_get_semantics (freshStore 2) "k" none 0 (by decide)).1 (by decide)
  exact ⟨h.1, by rw [h.2.2.1]; decide⟩

theorem storeDelete_eq_not_found (s : AsyncKeyValueStore) (k : String) (ns : Option String)
    (now : Int) (h : cacheLookup s.cache (makeNamespacedKey ns k) = none) :
    storeDelete s k ns now = (false, s) := by
  simp only [storeDelete]
  rw [cacheDelete_eq_none h]
  simp

/-- **C7** (confirmed): `delete` returns `True` and appends exactly one
`DEL` record when the full key is present, returns `False` with no WAL
write when it is absent; a second delete of the same key returns
`False`, and a `get` after a delete is absent. -/
theorem claim_C7_delete_semantics (s : AsyncKeyValueStore) (k : String) (ns : Option String)
    (t1 t2 t3 : Int) (hnd : (cacheKeys s.cache).Nodup) :
    ((cacheLookup s.cache (makeNamespacedKey ns k)).isSome →
       (storeDelete s k ns t1).1 = true ∧
       ((storeDelete s k ns t1).2).wal = s.wal ++ [⟨t1, "DEL", k, none, none, ns⟩]) ∧
    (cacheLookup s.cache (makeNamespacedKey ns k) = none →
       (storeDelete s k ns t1).1 = false ∧
       (storeDelete s k ns t1).2 = s) ∧
    (storeDelete ((storeDelete s k ns t1).2) k ns t2).1 = false ∧
    (storeGet ((storeDelete s k ns t1).2) k ns t3).1 = none := by
  have hafter : cacheLookup ((storeDelete s k ns t1).2).cache (makeNamespacedKey ns k) = none := by
    rw [storeDelete_cache]
    exact cacheDelete_lookup_self s.cache (makeNamespacedKey ns k) hnd
  refine ⟨?_, ?_, ?_, ?_⟩
  · intro h
    constructor
    · rw [storeDelete_fst, cacheDelete_fst]
      exact h
    · rw [storeDelete_wal, cacheDelete_fst]
      simp [h]
  · intro h
    rw [storeDelete_eq_not_found s k ns t1 h]
    exact ⟨rfl, rfl⟩
  · rw [storeDelete_fst, cacheDelete_fst, hafter]
    rfl
  · rw [storeGet_fst, cacheGet_fst, hafter]

/-- Witness for C7: set then delete twice on a concrete store. -/
theorem claim_C7_witness :
    (storeDelete (storeSet (freshStore 1) "k" "v" none none 0) "k" none 1).1 = true ∧
    (storeDelete ((storeDelete (storeSet (freshStore 1) "k" "v" none none 0) "k" none 1).2)
        "k" none 2).1 = false ∧
    (storeGet ((storeDelete (storeSet (freshStore 1) "k" "v" none none 0) "k" none 1).2)
        "k" none 3).1 = none := by
  have h := claim_C7_delete_semantics (storeSet (freshStore 1) "k" "v" none none 0)
    "k" none 1 2 3 (by decide)
  exact ⟨(h.1 (by decide)).1, h.2.2.1, h.2.2.2⟩

/-- **C9** (code bug, exhibited): with capacity 1, a second `set`
evicts the first key — the store holds one entry and `"a"` is gone —
yet the `evictions` counter remains 0: `put` never touches it and no
other code increments it. -/
theorem claim_C9_evictions_never_incremented :
    (runOps (freshStore 1)
        [StoreOp.set "a" "1" none none 0, StoreOp.set "b" "2" none none 1]).stats.evictions
      = 0 ∧
    (runOps (freshStore 1)
        [StoreOp.set "a" "1" none none 0, StoreOp.set "b" "2" none none 1]).cache.entries.length
      = 1 ∧
    (storeGet (runOps (freshStore 1)
        [StoreOp.set "a" "1" none none 0, StoreOp.set "b" "2" none none 1]) "a" none 1).1
      = none := by
  decide

/-- **C4** counterexample: the claim includes TTL `t = 0` meaning
immediate expiry, but `AsyncNode.__init__` computes
`time.time() + ttl if ttl else None` and `0` is falsy — a key set with
TTL 0 at time 0 is still returned by `get` at time 100, though
100 > 0 + 0. -/
theorem claim_C4_counterexample :
    (storeGet (storeSet (freshStore 1) "k" "v" (some 0) none 0) "k" none 100).1 = some "v" := by
  decide

/-- **C4** amended (proved): for strictly positive TTL `t`, a `get`
strictly more than `t` seconds after the `set` returns absent; a TTL
of `0` instead stores the entry with no expiry, so `get` returns the
value at every later instant. -/
theorem claim_C4_ttl_expiry (s : AsyncKeyValueStore) (k v : String) (ns : Option String)
    (t ts tg : Int) (hpos : 0 < t) (hlate : ts + t < tg) :
    (storeGet (storeSet s k v (some t) ns ts) k ns tg).1 = none ∧
    (storeGet (storeSet s k v (some 0) ns ts) k ns tg).1 = some v := by
  constructor
  · rw [storeGet_fst, storeSet_cache, cacheGet_fst, cacheLookup_put_self]
    have he : ttlToExpiry (some t) ts = some (ts + t) := by
      simp only [ttlToExpiry]
      rw [if_neg (by omega)]
    have hexp : isExpired ⟨makeNamespacedKey ns k, v, ttlToExpiry (some t) ts, ts⟩ tg = true := by
      simp only [isExpired, he]
      simp only [decide_eq_true_eq]
      omega
    simp [hexp]
  · rw [storeGet_fst, storeSet_cache, cacheGet_fst, cacheLookup_put_self]
    have he : ttlToExpiry (some 0) ts = none := rfl
    have hexp : isExpired ⟨makeNamespacedKey ns k, v, ttlToExpiry (some 0) ts, ts⟩ tg = false := by
      simp only [isExpired, he]
    simp [hexp]

/-- Witness for the amended C4 at a concrete input. -/
theorem claim_C4_witness :
    0 < (1 : Int) ∧ (0 : Int) + 1 < 2 ∧
    (storeGet (storeSet (freshStore 1) "k" "v" (some 1) none 0) "k" none 2).1 = none := by
  have h := claim_C4_ttl_expiry (freshStore 1) "k" "v" none 1 0 2 (by decide) (by decide)
  exact ⟨by decide, by decide, h.1⟩

/-- Distinct (string) namespaces always flatten the same user key to
distinct full keys. -/
theorem makeNamespacedKey_inj_ns (a b k : String) (hne : a ≠ b) :
    makeNamespacedKey (some a) k ≠ makeNamespacedKey (some b) k := by
  have hlen : ∀ x : String, x ≠ "" →
      (makeNamespacedKey (some x) k).length = x.length + 1 + k.length := by
    intro x hx
    simp only [makeNamespacedKey]
    rw [if_neg (by simpa using hx)]
    simp only [String.length_append]
    have hcolon : ":".length = 1 := rfl
    omega
  have hlen0 : ∀ x : String, x ≠ "" → 1 ≤ x.length := by
    intro x hx
    cases hx' : x.data with
    | nil =>
      exfalso
      apply hx
      cases x
      simp_all
    | cons c cs =>
      have : x.length = x.data.length := rfl
      rw [this, hx']
      simp
  by_cases ha : a = ""
  · subst ha
    have hb : b ≠ "" := fun hb => hne (hb ▸ rfl)
    intro hc
    have h1 : (makeNamespacedKey (some "") k).length = k.length := by
      simp [makeNamespacedKey]
    have h2 := hlen b hb
    rw [hc, h2] at h1
    have := hlen0 b hb
    omega
  · by_cases hb : b = ""
    · subst hb
      intro hc
      have h1 : (makeNamespacedKey (some "") k).length = k.length := by
        simp [makeNamespacedKey]
      have h2 := hlen a ha
      rw [← hc, h2] at h1
      have := hlen0 a ha
      omega
    · intro hc
      simp only [makeNamespacedKey] at hc
      rw [if_neg (by simpa using ha), if_neg (by simpa using hb)] at hc
      apply hne
      have hdata := congrArg String.data hc
      simp only [String.data_append] at hdata
      have h1 := List.append_cancel_right hdata
      have h2 := List.append_cancel_right h1
      cases a; cases b
      exact congrArg String.mk (by simpa using h2)

/-- **C8** counterexample: with capacity 1, key `"k"` live in namespace
`"n1"` with value `"a"`, a `set("k","b",ns="n2")` evicts the `n1` entry
(eviction ignores namespaces), so `get("k","n1")` flips from `"a"` to
absent. -/
theorem claim_C8_counterexample :
    (storeGet (storeSet (freshStore 1) "k" "a" none (some "n1") 0) "k" (some "n1") 0).1
      = some "a" ∧
    (storeGet (storeSet (storeSet (freshStore 1) "k" "a" none (some "n1") 0)
        "k" "b" none (some "n2") 1) "k" (some "n1") 1).1 = none := by
  decide

/-- **C8** amended (proved): for `ns1 ≠ ns2` the flattened keys are
distinct, and provided the `set` in `ns2` does not evict (its full key
is already present, or the store is below capacity), the result of
`get(k, ns1)` is unchanged. -/
theorem claim_C8_namespace_isolation (s : AsyncKeyValueStore) (k v : String)
    (ns1 ns2 : String) (ttl : Option Int) (tset tget : Int) (hne : ns1 ≠ ns2)
    (hsafe : (cacheLookup s.cache (makeNamespacedKey (some ns2) k)).isSome ∨
             s.cache.entries.length < s.cache.capacity) :
    makeNamespacedKey (some ns1) k ≠ makeNamespacedKey (some ns2) k ∧
    (storeGet (storeSet s k v ttl (some ns2) tset) k (some ns1) tget).1 =
      (storeGet s k (some ns1) tget).1 := by
  refine ⟨makeNamespacedKey_inj_ns ns1 ns2 k hne, ?_⟩
  rw [storeGet_fst, storeGet_fst, storeSet_cache, cacheGet_fst, cacheGet_fst,
    cacheLookup_put_ne s.cache (makeNamespacedKey (some ns2) k) v ttl tset
      (makeNamespacedKey (some ns1) k) (makeNamespacedKey_inj_ns ns1 ns2 k hne) hsafe]

/-- Witness for the amended C8 at a concrete input. -/
theorem claim_C8_witness :
    (storeGet (storeSet (storeSet (freshStore 2) "k" "a" none (some "n1") 0)
        "k" "b" none (some "n2") 1) "k" (some "n1") 1).1 = some "a" ∧
    (storeGet (storeSet (freshStore 2) "k" "a" none (some "n1") 0) "k" (some "n1") 1).1
      = some "a" := by
  have h := claim_C8_namespace_isolation
    (storeSet (freshStore 2) "k" "a" none (some "n1") 0) "k" "b" "n1" "n2" none 1 1
    (by decide) (Or.inr (by decide))
  exact ⟨by rw [h.2]; decide, by decide⟩

/-- **C10** counterexample: `set` with `namespace=""` shares the entry
and the `"default"` label with `namespace=None`, but then runs
`size("")`, which counts keys starting with `":"`, instead of
`size(None)`: after one `set` of `"k"` the recorded
`total_keys` is 0 under `ns=""` and 1 under `ns=None`, so the two
calls do not behave identically. -/
theorem claim_C10_counterexample :
    ((nsStatsFind (storeSet (freshStore 1) "k" "v" none (some "") 0).namespace_stats
       "default").map (·.total_keys)) = some 0 ∧
    ((nsStatsFind (storeSet (freshStore 1) "k" "v" none none 0).namespace_stats
       "default").map (·.total_keys)) = some 1 := by
  decide

/-- **C10** amended (proved): with `namespace=""`, the full key is the
bare key, `get` is literally identical to the namespace-less call, the
cache effects of `set` and `delete` and `delete`'s return value are
identical, statistics land under the label `"default"`, and `""` is
never returned by `list_namespaces`; only the logged `namespace` WAL
field and the `total_keys` figure (taken from `size("")`, which counts
keys prefixed `":"`) differ. -/
theorem claim_C10_empty_namespace :
    (∀ k, makeNamespacedKey (some "") k = makeNamespacedKey none k) ∧
    (∀ s : AsyncKeyValueStore, ∀ k now, storeGet s k (some "") now = storeGet s k none now) ∧
    (∀ s : AsyncKeyValueStore, ∀ k v ttl now,
       (storeSet s k v ttl (some "") now).cache = (storeSet s k v ttl none now).cache) ∧
    (∀ s : AsyncKeyValueStore, ∀ k now,
       (storeDelete s k (some "") now).1 = (storeDelete s k none now).1 ∧
       ((storeDelete s k (some "") now).2).cache = ((storeDelete s k none now).2).cache) ∧
    nsLabel (some "") = nsLabel none ∧
    (∀ s : AsyncKeyValueStore, "" ∉ listNamespaces s) := by
  refine ⟨fun k => rfl, fun s k now => rfl, fun s k v ttl now => rfl, ?_, rfl, ?_⟩
  · intro s k now
    constructor
    · rw [storeDelete_fst, storeDelete_fst]
      rfl
    · rw [storeDelete_cache, storeDelete_cache]
      rfl
  · intro s hmem
    unfold listNamespaces at hmem
    rw [(List.perm_insertionSort _ _).mem_iff, List.mem_dedup, List.mem_filterMap] at hmem
    obtain ⟨k, hk, hf⟩ := hmem
    rcases hp : parseNamespacedKey k with ⟨onsv, rest⟩
    rw [hp] at hf
    cases onsv with
    | none => cases hf
    | some nsv => by_cases hnsv : nsv = "" <;> simp [hnsv] at hf

/-- **C2** counterexample: the claim quantifies over every capacity
value, but with capacity 0 the eviction step (`remove_from_end` on an
empty list) returns `None` and the new key is inserted anyway: one
`set` leaves `size() = 1 > 0`. -/
theorem claim_C2_counterexample :
    ¬ storeSize (runOps (freshStore 0) [StoreOp.set "k" "v" none none 0]) none ≤ 0 := by
  decide

theorem runOps_size_inv (ops : List StoreOp) (s : AsyncKeyValueStore)
    (hcap : 1 ≤ s.cache.capacity) (hlen : s.cache.entries.length ≤ s.cache.capacity) :
    (runOps s ops).cache.capacity = s.cache.capacity ∧
    (runOps s ops).cache.entries.length ≤ s.cache.capacity := by
  induction ops generalizing s with
  | nil => exact ⟨rfl, hlen⟩
  | cons op ops ih =>
    have hone := applyOp_capacity s op
    have hlen' : (applyOp s op).cache.entries.length ≤ (applyOp s op).cache.capacity := by
      rw [hone]
      exact applyOp_length_le s op hcap hlen
    have := ih (applyOp s op) (by rw [hone]; exact hcap) hlen'
    rw [show runOps s (op :: ops) = runOps (applyOp s op) ops from rfl]
    exact ⟨this.1.trans hone, by rw [← hone]; exact this.2⟩

/-- **C2** amended (proved): for every capacity of at least 1 and every
operation sequence against a fresh store, `size()` after the run is at
most the capacity (each intermediate state satisfies the same bound by
the same induction). -/
theorem claim_C2_bounded_capacity (cap : Nat) (ops : List StoreOp) (hcap : 1 ≤ cap) :
    storeSize (runOps (freshStore cap) ops) none ≤ cap := by
  have h := runOps_size_inv ops (freshStore cap) (by simpa [freshStore] using hcap)
    (by simp [freshStore])
  simpa [storeSize, freshStore] using h.2

/-- Witness for the amended C2 at a concrete input. -/
theorem claim_C2_witness :
    storeSize (runOps (freshStore 1)
      [StoreOp.set "a" "1" none none 0, StoreOp.set "b" "2" none none 1]) none ≤ 1 :=
  claim_C2_bounded_capacity 1 [StoreOp.set "a" "1" none none 0, StoreOp.set "b" "2" none none 1]
    (by decide)

/-- **C3** (confirmed): when the store is at capacity and `set` inserts
a fresh full key, exactly the tail (least-recently-used) entry is
evicted — a subsequent `get` of its key is absent — while a `get` of
every other key present before the insert (and not expired at that
instant) still returns its stored value. -/
theorem claim_C3_lru_eviction (s : AsyncKeyValueStore) (k v : String) (ns : Option String)
    (ttl : Option Int) (tset tget : Int) (lruNode : AsyncNode)
    (hnd : (cacheKeys s.cache).Nodup)
    (hfull : s.cache.entries.length = s.cache.capacity)
    (_hpos : 0 < s.cache.capacity)
    (hnew : cacheLookup s.cache (makeNamespacedKey ns k) = none)
    (hlast : s.cache.entries.getLast? = some lruNode) :
    (storeGet (storeSet s k v ttl ns tset) lruNode.key none tget).1 = none ∧
    (∀ k' n', cacheLookup s.cache k' = some n' → k' ≠ lruNode.key →
       isExpired n' tget = false →
       (storeGet (storeSet s k v ttl ns tset) k' none tget).1 = some n'.value) := by
  obtain ⟨ys, hys⟩ := List.getLast?_eq_some_iff.mp hlast
  have hcap : s.cache.capacity ≤ s.cache.entries.length := le_of_eq hfull.symm
  have hput := cachePut_eq_evict (c := s.cache) (k := makeNamespacedKey ns k) v ttl tset hnew hcap
  have hdrop : s.cache.entries.dropLast = ys := by rw [hys]; simp
  have hmemlru : lruNode ∈ s.cache.entries := by rw [hys]; simp
  have hlrukey_mem : lruNode.key ∈ cacheKeys s.cache :=
    List.mem_map_of_mem (·.key) hmemlru
  have hnotmem : makeNamespacedKey ns k ∉ cacheKeys s.cache :=
    lookup_none_iff_not_mem_keys.mp hnew
  have hlru_ne_new : lruNode.key ≠ makeNamespacedKey ns k := by
    intro hc
    exact hnotmem (hc ▸ hlrukey_mem)
  have hnd' : (cacheKeys s.cache).Nodup := hnd
  have hkeys_split : cacheKeys s.cache = ys.map (·.key) ++ [lruNode.key] := by
    rw [show cacheKeys s.cache = s.cache.entries.map (·.key) from rfl, hys]
    simp
  have hlru_notin_ys : lruNode.key ∉ ys.map (·.key) := by
    rw [hkeys_split] at hnd'
    have := List.disjoint_of_nodup_append hnd'
    intro hc
    exact this hc (by simp)
  constructor
  · rw [storeGet_fst, storeSet_cache, cacheGet_fst]
    have hlook : cacheLookup (cachePut s.cache (makeNamespacedKey ns k) v ttl tset)
        (makeNamespacedKey none lruNode.key) = none := by
      rw [hput, cacheLookup_mk]
      rw [show makeNamespacedKey none lruNode.key = lruNode.key from rfl]
      rw [List.find?_cons_of_neg _ (by
        simp only [nodeKeyIs_iff]
        exact fun hc => hlru_ne_new hc.symm)]
      rw [hdrop, List.find?_eq_none]
      intro x hx hpx
      rw [nodeKeyIs_iff] at hpx
      exact hlru_notin_ys (hpx ▸ List.mem_map_of_mem (·.key) hx)
    rw [hlook]
  · intro k' n' hk' hne hlive
    rw [storeGet_fst, storeSet_cache, cacheGet_fst]
    have hk'_mem : k' ∈ cacheKeys s.cache := by
      rw [← lookup_isSome_iff_mem_keys, hk']
      rfl
    have hk'_ne_new : k' ≠ makeNamespacedKey ns k := by
      intro hc
      exact hnotmem (hc ▸ hk'_mem)
    have hfind_ys : ys.find? (nodeKeyIs k') = some n' := by
      have : cacheLookup s.cache k' = (ys ++ [lruNode]).find? (nodeKeyIs k') := by
        rw [show cacheLookup s.cache k' = s.cache.entries.find? (nodeKeyIs k') from rfl, hys]
      rw [this] at hk'
      rw [List.find?_append] at hk'
      have hlru_no : [lruNode].find? (nodeKeyIs k') = none := by
        rw [List.find?_eq_none]
        intro x hx hpx
        rw [List.mem_singleton] at hx
        subst hx
        rw [nodeKeyIs_iff] at hpx
        exact hne hpx.symm
      rw [hlru_no] at hk'
      simpa using hk'
    have hlook : cacheLookup (cachePut s.cache (makeNamespacedKey ns k) v ttl tset)
        (makeNamespacedKey none k') = some n' := by
      rw [hput, cacheLookup_mk]
      rw [show makeNamespacedKey none k' = k' from rfl]
      rw [List.find?_cons_of_neg _ (by
        simp only [nodeKeyIs_iff]
        exact fun hc => hk'_ne_new hc.symm)]
      rw [hdrop]
      exact hfind_ys
    rw [hlook]
    simp [hlive]

/-- Witness for C3: capacity 2 holding `"a"`, `"b"` (with `"a"` the
tail), inserting `"c"` evicts `"a"` and keeps `"b"`. -/
theorem claim_C3_witness :
    (storeGet (storeSet (runOps (freshStore 2)
        [StoreOp.set "a" "1" none none 0, StoreOp.set "b" "2" none none 1])
        "c" "3" none none 2) "a" none 3).1 = none ∧
    (storeGet (storeSet (runOps (freshStore 2)
        [StoreOp.set "a" "1" none none 0, StoreOp.set "b" "2" none none 1])
        "c" "3" none none 2) "b" none 3).1 = some "2" := by
  have h := claim_C3_lru_eviction (runOps (freshStore 2)
      [StoreOp.set "a" "1" none none 0, StoreOp.set "b" "2" none none 1])
    "c" "3" none none 2 3 ⟨"a", "1", none, 0⟩
    (by decide) (by decide) (by decide) (by decide) (by decide)
  exact ⟨h.1, h.2 "b" ⟨"b", "2", none, 1⟩ (by decide) (by decide) (by decide)⟩

/-! ### Closed form of the compaction scan (claim C5) -/

theorem compactScan_go (now : Int) (cap : Nat) (rest : List AsyncNode) :
    ∀ (pre : List AsyncNode) (acc : List (String × String × Option Int)),
    (∀ n ∈ pre, ∀ m ∈ rest, n.key ≠ m.key) →
    ((rest.map (·.key)).Nodup) →
    (rest.map (·.key)).foldl (compactScanStep now) (⟨cap, pre ++ rest⟩, acc) =
      (⟨cap, pre ++ rest.filter (fun n => !isExpired n now)⟩,
       acc ++ (rest.filter (fun n => !isExpired n now)).map
         (fun n => (n.key, n.value, n.expires_at))) := by
  induction rest with
  | nil => intro pre acc _ _; simp
  | cons n0 rest ih =>
    intro pre acc hdisj hnd
    simp only [List.map_cons, List.nodup_cons] at hnd
    have hfind : cacheLookup ⟨cap, pre ++ n0 :: rest⟩ n0.key = some n0 := by
      rw [cacheLookup_mk, List.find?_append]
      have hpre : pre.find? (nodeKeyIs n0.key) = none := by
        rw [List.find?_eq_none]
        intro x hx hpx
        rw [nodeKeyIs_iff] at hpx
        exact hdisj x hx n0 (by simp) hpx
      rw [hpre, List.find?_cons_of_pos _ (by simp [nodeKeyIs])]
      rfl
    have hdisj' : ∀ n ∈ pre, ∀ m ∈ rest, n.key ≠ m.key :=
      fun n hn m hm => hdisj n hn m (by simp [hm])
    rw [List.map_cons, List.foldl_cons]
    cases he : isExpired n0 now
    · have hstep : compactScanStep now (⟨cap, pre ++ n0 :: rest⟩, acc) n0.key =
          (⟨cap, (pre ++ [n0]) ++ rest⟩, acc ++ [(n0.key, n0.value, n0.expires_at)]) := by
        unfold compactScanStep
        rw [cacheGetRaw_eq_live hfind he]
        simp
      rw [hstep]
      have hdisj'' : ∀ n ∈ pre ++ [n0], ∀ m ∈ rest, n.key ≠ m.key := by
        intro n hn m hm
        rcases List.mem_append.mp hn with hn | hn
        · exact hdisj' n hn m hm
        · rw [List.mem_singleton] at hn
          subst hn
          intro hc
          exact hnd.1 (hc ▸ List.mem_map_of_mem (·.key) hm)
      rw [ih (pre ++ [n0]) (acc ++ [(n0.key, n0.value, n0.expires_at)]) hdisj'' hnd.2]
      simp [he]
    · have hstep : compactScanStep now (⟨cap, pre ++ n0 :: rest⟩, acc) n0.key =
          (⟨cap, pre ++ rest⟩, acc) := by
        unfold compactScanStep
        rw [cacheGetRaw_eq_expired hfind he]
        have herase : (pre ++ n0 :: rest).eraseP (nodeKeyIs n0.key) = pre ++ rest := by
          rw [List.eraseP_append_right _ (by
            intro x hx
            simp only [nodeKeyIs_iff]
            exact hdisj x hx n0 (by simp))]
          rw [List.eraseP_cons_of_pos (by simp [nodeKeyIs])]
        simp [herase]
      rw [hstep, ih pre acc hdisj' hnd.2]
      simp [he]

theorem compactScan_spec (s : AsyncKeyValueStore) (now : Int)
    (hnd : (cacheKeys s.cache).Nodup) :
    compactScan now s.cache (cacheKeys s.cache) =
      (⟨s.cache.capacity, s.cache.entries.filter (fun n => !isExpired n now)⟩,
       (s.cache.entries.filter (fun n => !isExpired n now)).map
         (fun n => (n.key, n.value, n.expires_at))) := by
  have hscan := compactScan_go now s.cache.capacity s.cache.entries [] [] (by simp) hnd
  simp only [List.nil_append] at hscan
  unfold compactScan cacheKeys
  exact hscan

theorem compactLog_cache (s : AsyncKeyValueStore) (now : Int)
    (hnd : (cacheKeys s.cache).Nodup) :
    (compactLog s now).cache =
      ⟨s.cache.capacity, s.cache.entries.filter (fun n => !isExpired n now)⟩ := by
  simp only [compactLog, compactScan_spec s now hnd]

theorem compactLog_wal (s : AsyncKeyValueStore) (now : Int)
    (hnd : (cacheKeys s.cache).Nodup) :
    (compactLog s now).wal =
      ((s.cache.entries.filter (fun n => !isExpired n now)).map
        (fun n => (n.key, n.value, n.expires_at))).filterMap (compactRecord now) := by
  simp only [compactLog, compactScan_spec s now hnd]

theorem compactRecord_action (now : Int) (entry : String × String × Option Int)
    (r : LogEntry) (h : compactRecord now entry = some r) : r.action = "SET" := by
  rcases entry with ⟨k, v, e⟩
  unfold compactRecord at h
  by_cases ht : floatTruthy e
  · simp only [ht, if_true] at h
    by_cases hle : max 0 ((e.getD 0) - now) ≤ 0
    · rw [if_pos hle] at h
      cases h
    · rw [if_neg hle] at h
      cases h
      rfl
  · simp only [ht] at h
    simp only [Bool.false_eq_true, if_false] at h
    cases h
    rfl

theorem compactRecord_isSome (now : Int) (entry : String × String × Option Int) :
    (compactRecord now entry).isSome = compactKeeps now entry.2.2 := by
  rcases entry with ⟨k, v, e⟩
  cases e with
  | none => rfl
  | some ev =>
    by_cases h0 : ev = 0
    · subst h0
      rfl
    · unfold compactRecord compactKeeps floatTruthy
      simp only [h0]
      have htr : (ev != 0) = true := by simpa using h0
      rw [htr]
      simp only [if_true, if_neg h0, Option.getD]
      by_cases hlt : now < ev
      · rw [if_neg (by omega : ¬ max 0 (ev - now) ≤ 0)]
        simp [hlt]
      · rw [if_pos (by omega : max 0 (ev - now) ≤ 0)]
        simp [hlt]

/-- **C5** counterexample: `set("k","v",ttl=5)` at time 0 and
`compact()` at time 5.  The entry is live and non-expired — `get`
still returns `"v"` at time 5 — but its remaining TTL is 0, so
`compact_log` writes no record at all: the compacted WAL has no `SET`
record for a live non-expired entry. -/
theorem claim_C5_counterexample :
    (compactLog (storeSet (freshStore 1) "k" "v" (some 5) none 0) 5).wal = [] ∧
    (storeGet (compactLog (storeSet (freshStore 1) "k" "v" (some 5) none 0) 5)
      "k" none 5).1 = some "v" := by
  decide

theorem compactRecord_eq_some (now : Int) (k v : String) (e : Option Int)
    (hk : compactKeeps now e = true) :
    compactRecord now (k, v, e) =
      some (compactRecordFor now ⟨k, v, e, 0⟩) := by
  cases e with
  | none => rfl
  | some ev =>
    by_cases h0 : ev = 0
    · subst h0
      rfl
    · have hlt : now < ev := by
        simp only [compactKeeps] at hk
        rw [if_neg h0] at hk
        exact of_decide_eq_true hk
      have htr : ((ev : Int) != 0) = true := by simpa using h0
      unfold compactRecord compactRecordFor compactTtl floatTruthy
      simp only [htr, if_true, Option.getD]
      rw [if_neg (by omega : ¬ max 0 (ev - now) ≤ 0)]

theorem compactRecord_eq_none (now : Int) (k v : String) (e : Option Int)
    (hk : compactKeeps now e = false) :
    compactRecord now (k, v, e) = none := by
  have h := compactRecord_isSome now (k, v, e)
  rw [hk] at h
  cases ho : compactRecord now (k, v, e) with
  | none => rfl
  | some r =>
    rw [ho] at h
    cases h

theorem filterMap_eq_map_of_filter {α β : Type} (f : α → Option β) (p : α → Bool)
    (g : α → β) (l : List α)
    (hsome : ∀ a, p a = true → f a = some (g a))
    (hnone : ∀ a, p a = false → f a = none) :
    l.filterMap f = (l.filter p).map g := by
  induction l with
  | nil => rfl
  | cons a l ih =>
    cases hp : p a
    · rw [List.filterMap_cons, hnone a hp, List.filter_cons_of_neg (by simp [hp]), ih]
    · rw [List.filterMap_cons, hsome a hp, List.filter_cons_of_pos (by simp [hp]),
        List.map_cons, ih]

/-- **C5** amended (proved): after `compact()` the WAL holds only `SET`
records (zero `DEL`s) and is exactly one record per surviving cache
entry, in order: for each live entry passing the `compactKeeps` test —
no expiry, expiry exactly 0, or strictly positive remaining TTL — the
WAL carries the record built from that entry's own key, value and
remaining TTL, and nothing else; live entries whose remaining TTL is
≤ 0 are omitted; `log_size` equals the record count. -/
theorem claim_C5_compaction (s : AsyncKeyValueStore) (now : Int)
    (hnd : (cacheKeys s.cache).Nodup) :
    (∀ r ∈ (compactLog s now).wal, r.action = "SET") ∧
    (compactLog s now).wal =
      ((compactLog s now).cache.entries.filter
        (fun n => compactKeeps now n.expires_at)).map (compactRecordFor now) ∧
    (compactLog s now).wal.length =
      (compactLog s now).cache.entries.countP (fun n => compactKeeps now n.expires_at) ∧
    (compactLog s now).stats.log_size = (compactLog s now).wal.length := by
  have hwal : (compactLog s now).wal =
      ((compactLog s now).cache.entries.filter
        (fun n => compactKeeps now n.expires_at)).map (compactRecordFor now) := by
    rw [compactLog_wal s now hnd, compactLog_cache s now hnd]
    rw [List.filterMap_map]
    apply filterMap_eq_map_of_filter
    · intro n hp
      rw [Function.comp_apply]
      rw [compactRecord_eq_some now n.key n.value n.expires_at hp]
      rfl
    · intro n hp
      rw [Function.comp_apply]
      exact compactRecord_eq_none now n.key n.value n.expires_at hp
  refine ⟨?_, hwal, ?_, rfl⟩
  · intro r hr
    rw [hwal, List.mem_map] at hr
    obtain ⟨n, _, hn⟩ := hr
    rw [← hn]
    rfl
  · rw [hwal, List.length_map]
    exact (List.countP_eq_length_filter _ _).symm

/-- Witness for the amended C5, realizing the spec's S5 scenario:
capacity 3, five distinct keys set, compaction leaves exactly three
`SET` records. -/
theorem claim_C5_witness :
    (compactLog (runOps (freshStore 3)
      [StoreOp.set "a" "1" none none 0, StoreOp.set "b" "2" none none 1,
       StoreOp.set "c" "3" none none 2, StoreOp.set "d" "4" none none 3,
       StoreOp.set "e" "5" none none 4]) 5).wal =
      ((compactLog (runOps (freshStore 3)
        [StoreOp.set "a" "1" none none 0, StoreOp.set "b" "2" none none 1,
         StoreOp.set "c" "3" none none 2, StoreOp.set "d" "4" none none 3,
         StoreOp.set "e" "5" none none 4]) 5).cache.entries.filter
        (fun n => compactKeeps 5 n.expires_at)).map (compactRecordFor 5) ∧
    (compactLog (runOps (freshStore 3)
      [StoreOp.set "a" "1" none none 0, StoreOp.set "b" "2" none none 1,
       StoreOp.set "c" "3" none none 2, StoreOp.set "d" "4" none none 3,
       StoreOp.set "e" "5" none none 4]) 5).wal.length = 3 := by
  refine ⟨(claim_C5_compaction (runOps (freshStore 3)
      [StoreOp.set "a" "1" none none 0, StoreOp.set "b" "2" none none 1,
       StoreOp.set "c" "3" none none 2, StoreOp.set "d" "4" none none 3,
       StoreOp.set "e" "5" none none 4]) 5 (by decide)).2.1, by decide⟩

/-! ### WAL bookkeeping lemmas (claim C1) -/

theorem walSetKeys_append (w1 w2 : List LogEntry) :
    walSetKeys (w1 ++ w2) = walSetKeys w1 ++ walSetKeys w2 := by
  unfold walSetKeys
  rw [List.filter_append, List.map_append]

theorem walSetKeys_set_record (t : Int) (k v : String) (ttl : Option Int)
    (ns : Option String) :
    walSetKeys [⟨t, "SET", k, some v, ttl, ns⟩] = [makeNamespacedKey ns k] := rfl

theorem walSetKeys_del_record (t : Int) (k : String) (ns : Option String) :
    walSetKeys [⟨t, "DEL", k, none, none, ns⟩] = [] := rfl

theorem walLastSetValue_append_set (wal : List LogEntry) (t : Int) (k v : String)
    (ttl : Option Int) (ns : Option String) (k0 : String) :
    walLastSetValue (wal ++ [⟨t, "SET", k, some v, ttl, ns⟩]) k0 =
      if makeNamespacedKey ns k = k0 then some v else walLastSetValue wal k0 := by
  unfold walLastSetValue
  rw [List.reverse_append]
  by_cases hk : makeNamespacedKey ns k = k0
  · rw [if_pos hk]
    have : ([⟨t, "SET", k, some v, ttl, ns⟩] : List LogEntry).reverse
        = [⟨t, "SET", k, some v, ttl, ns⟩] := rfl
    rw [this, List.cons_append, List.find?_cons_of_pos _ (by simp [hk])]
    rfl
  · rw [if_neg hk]
    have : ([⟨t, "SET", k, some v, ttl, ns⟩] : List LogEntry).reverse
        = [⟨t, "SET", k, some v, ttl, ns⟩] := rfl
    rw [this, List.cons_append, List.find?_cons_of_neg _ (by simp [hk])]
    rfl

theorem walLastSetValue_append_del (wal : List LogEntry) (t : Int) (k : String)
    (ns : Option String) (k0 : String) :
    walLastSetValue (wal ++ [⟨t, "DEL", k, none, none, ns⟩]) k0 =
      walLastSetValue wal k0 := by
  unfold walLastSetValue
  rw [List.reverse_append]
  have : ([⟨t, "DEL", k, none, none, ns⟩] : List LogEntry).reverse
      = [⟨t, "DEL", k, none, none, ns⟩] := rfl
  rw [this, List.cons_append, List.find?_cons_of_neg _ (by simp)]
  rfl

theorem replayWal_append (wal : List LogEntry) (r : LogEntry) (T : Int) (cap : Nat) :
    replayWal (wal ++ [r]) T cap = replayStep T (replayWal wal T cap) r := by
  unfold replayWal
  rw [List.foldl_append]
  rfl

theorem replayStep_capacity (T : Int) (c : AsyncLRUCache) (r : LogEntry) :
    (replayStep T c r).capacity = c.capacity := by
  unfold replayStep
  by_cases hset : (r.action == "SET") = true
  · simp only [hset, if_true]
    cases r.ttl with
    | none => rw [cachePut_capacity]
    | some t =>
      by_cases h0 : (t == 0) = true
      · simp only [h0, if_true]
        rw [cachePut_capacity]
      · simp only [h0, Bool.false_eq_true, if_false]
        by_cases hr : t - (T - r.timestamp) ≤ 0
        · simp only [hr, if_true]
        · simp only [hr, if_false]
          rw [cachePut_capacity]
  · simp only [hset, Bool.false_eq_true, if_false]
    by_cases hdel : (r.action == "DEL") = true
    · simp only [hdel, if_true]
      rw [cacheDelete_capacity]
    · simp only [hdel, Bool.false_eq_true, if_false]

theorem replayStep_keys_nodup (T : Int) (c : AsyncLRUCache) (r : LogEntry)
    (hnd : (cacheKeys c).Nodup) : (cacheKeys (replayStep T c r)).Nodup := by
  unfold replayStep
  by_cases hset : (r.action == "SET") = true
  · simp only [hset, if_true]
    cases r.ttl with
    | none => exact keys_nodup_put _ _ _ _ _ hnd
    | some t =>
      by_cases h0 : (t == 0) = true
      · simp only [h0, if_true]
        exact keys_nodup_put _ _ _ _ _ hnd
      · simp only [h0, Bool.false_eq_true, if_false]
        by_cases hr : t - (T - r.timestamp) ≤ 0
        · simp only [hr, if_true]
          exact hnd
        · simp only [hr, if_false]
          exact keys_nodup_put _ _ _ _ _ hnd
  · simp only [hset, Bool.false_eq_true, if_false]
    by_cases hdel : (r.action == "DEL") = true
    · simp only [hdel, if_true]
      exact keys_nodup_delete _ _ hnd
    · simp only [hdel, Bool.false_eq_true, if_false]
      exact hnd

theorem replayStep_keys_subset (T : Int) (c : AsyncLRUCache) (r : LogEntry) :
    ∀ x ∈ cacheKeys (replayStep T c r), x ∈ cacheKeys c ∨ x ∈ walSetKeys [r] := by
  intro x hx
  unfold replayStep at hx
  by_cases hset : (r.action == "SET") = true
  · simp only [hset, if_true] at hx
    have hwal : walSetKeys [r] = [makeNamespacedKey r.nspace r.key] := by
      unfold walSetKeys
      simp [List.filter_cons, hset]
    rw [hwal]
    have hput : ∀ (v : String) (ttl : Option Int) (now : Int),
        x ∈ cacheKeys (cachePut c (makeNamespacedKey r.nspace r.key) v ttl now) →
        x ∈ cacheKeys c ∨ x ∈ [makeNamespacedKey r.nspace r.key] := by
      intro v ttl now hmem
      rcases keys_put_subset c (makeNamespacedKey r.nspace r.key) v ttl now x hmem with h | h
      · right; simp [h]
      · left; exact h
    cases htl : r.ttl with
    | none =>
      simp only [htl] at hx
      exact hput _ _ _ hx
    | some t =>
      simp only [htl] at hx
      by_cases h0 : (t == 0) = true
      · simp only [h0, if_true] at hx
        exact hput _ _ _ hx
      · simp only [h0, Bool.false_eq_true, if_false] at hx
        by_cases hr : t - (T - r.timestamp) ≤ 0
        · simp only [hr, if_true] at hx
          exact Or.inl hx
        · simp only [hr, if_false] at hx
          exact hput _ _ _ hx
  · simp only [hset, Bool.false_eq_true, if_false] at hx
    by_cases hdel : (r.action == "DEL") = true
    · simp only [hdel, if_true] at hx
      exact Or.inl (keys_delete_sublist _ _ x hx)
    · simp only [hdel, Bool.false_eq_true, if_false] at hx
      exact Or.inl hx

theorem replayWal_capacity (wal : List LogEntry) (T : Int) (cap : Nat) :
    (replayWal wal T cap).capacity = cap := by
  induction wal using List.reverseRecOn with
  | nil => rfl
  | append_singleton wal r ih =>
    rw [replayWal_append, replayStep_capacity]
    exact ih

theorem replayWal_keys_nodup (wal : List LogEntry) (T : Int) (cap : Nat) :
    (cacheKeys (replayWal wal T cap)).Nodup := by
  induction wal using List.reverseRecOn with
  | nil => exact List.nodup_nil
  | append_singleton wal r ih =>
    rw [replayWal_append]
    exact replayStep_keys_nodup T _ r ih

theorem replayWal_keys_subset (wal : List LogEntry) (T : Int) (cap : Nat) :
    ∀ x ∈ cacheKeys (replayWal wal T cap), x ∈ walSetKeys wal := by
  induction wal using List.reverseRecOn with
  | nil => intro x hx; cases hx
  | append_singleton wal r ih =>
    intro x hx
    rw [replayWal_append] at hx
    rw [walSetKeys_append, List.mem_append]
    rcases replayStep_keys_subset T _ r x hx with h | h
    · exact Or.inl (ih x h)
    · exact Or.inr h

/-- With distinct keys all drawn from a key set of at most `capacity`
distinct elements that also contains `k`, a `put` of `k` cannot evict:
either `k` is present or there is spare room. -/
theorem put_no_evict_safe (c : AsyncLRUCache) (k : String) (S : List String)
    (hmemS : k ∈ S) (hsub : ∀ x ∈ cacheKeys c, x ∈ S)
    (hnd : (cacheKeys c).Nodup) (hcard : S.toFinset.card ≤ c.capacity) :
    (cacheLookup c k).isSome ∨ c.entries.length < c.capacity := by
  cases hl : cacheLookup c k with
  | some n =>
    left
    rfl
  | none =>
    right
    have hknot : k ∉ cacheKeys c := lookup_none_iff_not_mem_keys.mp hl
    have hlen : (cacheKeys c).length = (cacheKeys c).toFinset.card :=
      (List.toFinset_card_of_nodup hnd).symm
    have hsubF : insert k (cacheKeys c).toFinset ⊆ S.toFinset := by
      intro x hx
      rw [Finset.mem_insert] at hx
      rw [List.mem_toFinset]
      rcases hx with hx | hx
      · exact hx ▸ hmemS
      · exact hsub x (List.mem_toFinset.mp hx)
    have hins : (insert k (cacheKeys c).toFinset).card = (cacheKeys c).toFinset.card + 1 :=
      Finset.card_insert_of_not_mem (by
        rw [List.mem_toFinset]
        exact hknot)
    have hle := Finset.card_le_card hsubF
    have hlenkeys : (cacheKeys c).length = c.entries.length := by
      simp [cacheKeys]
    omega

/-- A replay step for a `SET` record never disturbs other keys, as
long as its own full key cannot cause an eviction. -/
theorem replayStep_lookup_ne (T : Int) (c : AsyncLRUCache) (r : LogEntry) (k0 : String)
    (hne : k0 ≠ makeNamespacedKey r.nspace r.key)
    (hsafe : (cacheLookup c (makeNamespacedKey r.nspace r.key)).isSome ∨
             c.entries.length < c.capacity) :
    cacheLookup (replayStep T c r) k0 = cacheLookup c k0 := by
  unfold replayStep
  by_cases hset : (r.action == "SET") = true
  · simp only [hset, if_true]
    cases r.ttl with
    | none => exact cacheLookup_put_ne _ _ _ _ _ _ hne hsafe
    | some t =>
      by_cases h0 : (t == 0) = true
      · simp only [h0, if_true]
        exact cacheLookup_put_ne _ _ _ _ _ _ hne hsafe
      · simp only [h0, Bool.false_eq_true, if_false]
        by_cases hr : t - (T - r.timestamp) ≤ 0
        · simp only [hr, if_true]
        · simp only [hr, if_false]
          exact cacheLookup_put_ne _ _ _ _ _ _ hne hsafe
  · simp only [hset, Bool.false_eq_true, if_false]
    by_cases hdel : (r.action == "DEL") = true
    · simp only [hdel, if_true]
      exact cacheDelete_lookup_ne _ _ _ hne
    · simp only [hdel, Bool.false_eq_true, if_false]

theorem recoverInv_get (s : AsyncKeyValueStore) (k : String) (ns : Option String)
    (t T : Int) (cap : Nat) (hinv : recoverInv s T cap) :
    recoverInv (storeGet s k ns t).2 T cap := by
  obtain ⟨hcap, hnd, hsub, hrel, hlast⟩ := hinv
  have hwal : ((storeGet s k ns t).2).wal = s.wal := storeGet_wal s k ns t
  have hcache : ((storeGet s k ns t).2).cache
      = (cacheGet s.cache (makeNamespacedKey ns k) t).2 := storeGet_cache s k ns t
  refine ⟨?_, ?_, ?_, ?_, ?_⟩
  · rw [hcache, cacheGet_capacity]
    exact hcap
  · rw [hcache]
    exact keys_nodup_get _ _ _ hnd
  · intro x hx
    rw [hcache] at hx
    rw [hwal]
    exact hsub x (keys_get_sublist _ _ _ x hx)
  · intro k0 n0 h0 hlive
    rw [hcache] at h0
    rw [hwal]
    obtain ⟨n, hn, hv, he⟩ := cacheGet_snd_lookup _ _ _ _ hnd h0
    have hlive' : nodeLiveStrict n T := by
      unfold nodeLiveStrict at hlive ⊢
      rw [← he]
      exact hlive
    obtain ⟨n', hn', hv', he'⟩ := hrel k0 n hn hlive'
    exact ⟨n', hn', by rw [hv', ← hv], by rw [he', ← he]⟩
  · intro k0 n0 h0
    rw [hcache] at h0
    rw [hwal]
    obtain ⟨n, hn, hv, he⟩ := cacheGet_snd_lookup _ _ _ _ hnd h0
    rw [hv]
    exact hlast k0 n hn

theorem recoverInv_del (s : AsyncKeyValueStore) (k : String) (ns : Option String)
    (t T : Int) (cap : Nat) (hinv : recoverInv s T cap) :
    recoverInv (storeDelete s k ns t).2 T cap := by
  obtain ⟨hcap, hnd, hsub, hrel, hlast⟩ := hinv
  cases hb : cacheLookup s.cache (makeNamespacedKey ns k) with
  | none =>
    rw [storeDelete_eq_not_found s k ns t hb]
    exact ⟨hcap, hnd, hsub, hrel, hlast⟩
  | some nDel =>
    have hcache : ((storeDelete s k ns t).2).cache
        = (cacheDelete s.cache (makeNamespacedKey ns k)).2 := storeDelete_cache s k ns t
    have hfst : (cacheDelete s.cache (makeNamespacedKey ns k)).1 = true := by
      rw [cacheDelete_fst, hb]
      rfl
    have hwal : ((storeDelete s k ns t).2).wal
        = s.wal ++ [⟨t, "DEL", k, none, none, ns⟩] := by
      rw [storeDelete_wal, hfst]
      simp
    have hstep : replayStep T (replayWal s.wal T cap) ⟨t, "DEL", k, none, none, ns⟩ =
        (cacheDelete (replayWal s.wal T cap) (makeNamespacedKey ns k)).2 := rfl
    refine ⟨?_, ?_, ?_, ?_, ?_⟩
    · rw [hcache, cacheDelete_capacity]
      exact hcap
    · rw [hcache]
      exact keys_nodup_delete _ _ hnd
    · intro x hx
      rw [hcache] at hx
      rw [hwal, walSetKeys_append, List.mem_append]
      exact Or.inl (hsub x (keys_delete_sublist _ _ x hx))
    · intro k0 n0 h0 hlive
      rw [hcache] at h0
      rw [hwal, replayWal_append, hstep]
      by_cases hk0 : k0 = makeNamespacedKey ns k
      · subst hk0
        rw [cacheDelete_lookup_self _ _ hnd] at h0
        cases h0
      · rw [cacheDelete_lookup_ne _ _ _ hk0] at h0
        obtain ⟨n', hn', hv', he'⟩ := hrel k0 n0 h0 hlive
        refine ⟨n', ?_, hv', he'⟩
        rw [cacheDelete_lookup_ne _ _ _ hk0]
        exact hn'
    · intro k0 n0 h0
      rw [hcache] at h0
      rw [hwal, walLastSetValue_append_del]
      by_cases hk0 : k0 = makeNamespacedKey ns k
      · subst hk0
        rw [cacheDelete_lookup_self _ _ hnd] at h0
        cases h0
      · rw [cacheDelete_lookup_ne _ _ _ hk0] at h0
        exact hlast k0 n0 h0

/-- Replaying the `SET` record just written for a strictly live entry
reinstates the same value and the same absolute expiry. -/
theorem replayStep_set_self (T t : Int) (c : AsyncLRUCache) (k v : String)
    (ttl : Option Int) (ns : Option String)
    (hlive : nodeLiveStrict ⟨makeNamespacedKey ns k, v, ttlToExpiry ttl t, t⟩ T) :
    ∃ n', cacheLookup (replayStep T c ⟨t, "SET", k, some v, ttl, ns⟩)
        (makeNamespacedKey ns k) = some n' ∧
      n'.value = v ∧ n'.expires_at = ttlToExpiry ttl t := by
  cases ttl with
  | none =>
    have hstep : replayStep T c ⟨t, "SET", k, some v, none, ns⟩ =
        cachePut c (makeNamespacedKey ns k) v none T := rfl
    rw [hstep, cacheLookup_put_self]
    exact ⟨_, rfl, rfl, rfl⟩
  | some tt =>
    by_cases h0 : tt = 0
    · subst h0
      have hstep : replayStep T c ⟨t, "SET", k, some v, some 0, ns⟩ =
          cachePut c (makeNamespacedKey ns k) v none T := rfl
      rw [hstep, cacheLookup_put_self]
      exact ⟨_, rfl, rfl, rfl⟩
    · have hexp : ttlToExpiry (some tt) t = some (t + tt) := by
        simp only [ttlToExpiry]
        rw [if_neg h0]
      have hTlt : T < t + tt := by
        rcases hlive with h | ⟨e, he, hTe⟩
        · rw [show (⟨makeNamespacedKey ns k, v, ttlToExpiry (some tt) t, t⟩ :
              AsyncNode).expires_at = ttlToExpiry (some tt) t from rfl, hexp] at h
          cases h
        · rw [show (⟨makeNamespacedKey ns k, v, ttlToExpiry (some tt) t, t⟩ :
              AsyncNode).expires_at = ttlToExpiry (some tt) t from rfl, hexp] at he
          cases he
          exact hTe
      have hrem : ¬ tt - (T - t) ≤ 0 := by omega
      have hstep : replayStep T c ⟨t, "SET", k, some v, some tt, ns⟩ =
          cachePut c (makeNamespacedKey ns k) v (some (tt - (T - t))) T := by
        unfold replayStep
        simp only [show (("SET" : String) == "SET") = true from rfl, if_true]
        simp only [show ((tt == 0) = false) from by simpa using h0, Bool.false_eq_true, if_false]
        rw [if_neg hrem]
        rfl
      rw [hstep, cacheLookup_put_self]
      refine ⟨_, rfl, rfl, ?_⟩
      have heq : ttlToExpiry (some (tt - (T - t))) T = some (t + tt) := by
        simp only [ttlToExpiry]
        rw [if_neg (by omega)]
        congr 1
        omega
      rw [heq, hexp]

theorem recoverInv_set (s : AsyncKeyValueStore) (k v : String) (ttl : Option Int)
    (ns : Option String) (t T : Int) (cap : Nat) (hinv : recoverInv s T cap)
    (hcard : (walSetKeys (storeSet s k v ttl ns t).wal).toFinset.card ≤ cap) :
    recoverInv (storeSet s k v ttl ns t) T cap := by
  obtain ⟨hcap, hnd, hsub, hrel, hlast⟩ := hinv
  have hwal : (storeSet s k v ttl ns t).wal = s.wal ++ [⟨t, "SET", k, some v, ttl, ns⟩] :=
    storeSet_wal s k v ttl ns t
  have hcache : (storeSet s k v ttl ns t).cache
      = cachePut s.cache (makeNamespacedKey ns k) v ttl t := storeSet_cache s k v ttl ns t
  have hS : walSetKeys (storeSet s k v ttl ns t).wal
      = walSetKeys s.wal ++ [makeNamespacedKey ns k] := by
    rw [hwal, walSetKeys_append, walSetKeys_set_record]
  rw [hS] at hcard
  have hfullS : makeNamespacedKey ns k ∈ walSetKeys s.wal ++ [makeNamespacedKey ns k] := by
    simp
  have hsub' : ∀ x ∈ cacheKeys s.cache,
      x ∈ walSetKeys s.wal ++ [makeNamespacedKey ns k] := by
    intro x hx
    rw [List.mem_append]
    exact Or.inl (hsub x hx)
  have hsafe_run := put_no_evict_safe s.cache (makeNamespacedKey ns k) _ hfullS hsub' hnd
    (by rw [hcap]; exact hcard)
  have hsubR : ∀ x ∈ cacheKeys (replayWal s.wal T cap),
      x ∈ walSetKeys s.wal ++ [makeNamespacedKey ns k] := by
    intro x hx
    rw [List.mem_append]
    exact Or.inl (replayWal_keys_subset s.wal T cap x hx)
  have hsafe_rep := put_no_evict_safe (replayWal s.wal T cap) (makeNamespacedKey ns k) _
    hfullS hsubR (replayWal_keys_nodup s.wal T cap)
    (by rw [replayWal_capacity]; exact hcard)
  refine ⟨?_, ?_, ?_, ?_, ?_⟩
  · rw [hcache, cachePut_capacity]
    exact hcap
  · rw [hcache]
    exact keys_nodup_put _ _ _ _ _ hnd
  · intro x hx
    rw [hcache] at hx
    rw [hS, List.mem_append]
    rcases keys_put_subset _ _ _ _ _ x hx with h | h
    · right
      simp [h]
    · left
      exact hsub x h
  · intro k0 n0 h0 hlive
    rw [hcache] at h0
    rw [hwal, replayWal_append]
    by_cases hk0 : k0 = makeNamespacedKey ns k
    · subst hk0
      rw [cacheLookup_put_self] at h0
      cases h0
      exact replayStep_set_self T t _ k v ttl ns hlive
    · rw [cacheLookup_put_ne _ _ _ _ _ _ hk0 hsafe_run] at h0
      obtain ⟨n', hn', hv', he'⟩ := hrel k0 n0 h0 hlive
      refine ⟨n', ?_, hv', he'⟩
      rw [replayStep_lookup_ne T _ _ k0 hk0 hsafe_rep]
      exact hn'
  · intro k0 n0 h0
    rw [hcache] at h0
    rw [hwal, walLastSetValue_append_set]
    by_cases hk0 : k0 = makeNamespacedKey ns k
    · subst hk0
      rw [cacheLookup_put_self] at h0
      cases h0
      rw [if_pos rfl]
    · rw [if_neg (fun hc => hk0 hc.symm)]
      rw [cacheLookup_put_ne _ _ _ _ _ _ hk0 hsafe_run] at h0
      exact hlast k0 n0 h0

theorem recoverInv_applyOp (s : AsyncKeyValueStore) (op : StoreOp) (T : Int) (cap : Nat)
    (hinv : recoverInv s T cap)
    (hcard : (walSetKeys (applyOp s op).wal).toFinset.card ≤ cap) :
    recoverInv (applyOp s op) T cap := by
  cases op with
  | set k v ttl ns t => exact recoverInv_set s k v ttl ns t T cap hinv hcard
  | get k ns t => exact recoverInv_get s k ns t T cap hinv
  | del k ns t => exact recoverInv_del s k ns t T cap hinv

theorem applyOp_wal_extend (s : AsyncKeyValueStore) (op : StoreOp) :
    ∃ δ, (applyOp s op).wal = s.wal ++ δ := by
  cases op with
  | set k v ttl ns t => exact ⟨_, storeSet_wal s k v ttl ns t⟩
  | get k ns t =>
    refine ⟨[], ?_⟩
    rw [show (applyOp s (StoreOp.get k ns t)).wal = ((storeGet s k ns t).2).wal from rfl,
      storeGet_wal]
    simp
  | del k ns t =>
    refine ⟨if (cacheDelete s.cache (makeNamespacedKey ns k)).1
      then [⟨t, "DEL", k, none, none, ns⟩] else [], ?_⟩
    rw [show (applyOp s (StoreOp.del k ns t)).wal = ((storeDelete s k ns t).2).wal from rfl,
      storeDelete_wal]
    by_cases hb : (cacheDelete s.cache (makeNamespacedKey ns k)).1 <;> simp [hb]

theorem recoverInv_runOps (T : Int) (cap : Nat) (ops : List StoreOp)
    (hcard : (walSetKeys (runOps (freshStore cap) ops).wal).toFinset.card ≤ cap) :
    recoverInv (runOps (freshStore cap) ops) T cap := by
  induction ops using List.reverseRecOn with
  | nil =>
    refine ⟨rfl, List.nodup_nil, ?_, ?_, ?_⟩
    · intro x hx
      cases hx
    · intro k n h _
      cases h
    · intro k n h
      cases h
  | append_singleton ops op ih =>
    have hrun : runOps (freshStore cap) (ops ++ [op])
        = applyOp (runOps (freshStore cap) ops) op := by
      unfold runOps
      rw [List.foldl_append]
      rfl
    rw [hrun] at hcard ⊢
    obtain ⟨δ, hδ⟩ := applyOp_wal_extend (runOps (freshStore cap) ops) op
    have hcard' : (walSetKeys (runOps (freshStore cap) ops).wal).toFinset.card ≤ cap := by
      refine le_trans (Finset.card_le_card ?_) hcard
      intro x hx
      rw [List.mem_toFinset] at hx ⊢
      rw [hδ, walSetKeys_append, List.mem_append]
      exact Or.inl hx
    exact recoverInv_applyOp _ op T cap (ih hcard') hcard

theorem walSetKeys_runOps (ops : List StoreOp) (s : AsyncKeyValueStore) :
    walSetKeys (runOps s ops).wal = walSetKeys s.wal ++ ops.filterMap opSetKey := by
  induction ops generalizing s with
  | nil =>
    show walSetKeys s.wal = walSetKeys s.wal ++ []
    simp
  | cons op ops ih =>
    rw [show runOps s (op :: ops) = runOps (applyOp s op) ops from rfl, ih]
    cases op with
    | set k v ttl ns t =>
      rw [show applyOp s (StoreOp.set k v ttl ns t) = storeSet s k v ttl ns t from rfl,
        storeSet_wal, walSetKeys_append, walSetKeys_set_record]
      rw [show (StoreOp.set k v ttl ns t :: ops).filterMap opSetKey
        = makeNamespacedKey ns k :: ops.filterMap opSetKey from rfl]
      simp
    | get k ns t =>
      rw [show (applyOp s (StoreOp.get k ns t)).wal = ((storeGet s k ns t).2).wal from rfl,
        storeGet_wal]
      rw [show (StoreOp.get k ns t :: ops).filterMap opSetKey
        = ops.filterMap opSetKey from rfl]
    | del k ns t =>
      rw [show (applyOp s (StoreOp.del k ns t)).wal = ((storeDelete s k ns t).2).wal from rfl,
        storeDelete_wal]
      rw [show (StoreOp.del k ns t :: ops).filterMap opSetKey
        = ops.filterMap opSetKey from rfl]
      by_cases hb : (cacheDelete s.cache (makeNamespacedKey ns k)).1
      · rw [if_pos hb, walSetKeys_append, walSetKeys_del_record]
        simp
      · rw [if_neg hb]

/-- **C1** counterexample: capacity 2; `set a`, `set b`, `get a`
(moving `a` to head — not logged), `set c` (evicting `b`).  Before
shutdown `a` is live with value `"1"` and no TTL; but replaying the
WAL (`SET a`, `SET b`, `SET c`) evicts `a` instead of `b`, so after
recovery `get("a")` is absent. -/
theorem claim_C1_counterexample :
    cacheLookup (runOps (freshStore 2)
        [StoreOp.set "a" "1" none none 0, StoreOp.set "b" "2" none none 1,
         StoreOp.get "a" none 2, StoreOp.set "c" "3" none none 3]).cache "a"
      = some ⟨"a", "1", none, 2⟩ ∧
    (storeGet (recoverStore 2 (runOps (freshStore 2)
        [StoreOp.set "a" "1" none none 0, StoreOp.set "b" "2" none none 1,
         StoreOp.get "a" none 2, StoreOp.set "c" "3" none none 3]).wal 4)
      "a" none 4).1 = none := by
  decide

/-- **C1** amended (proved): round-trip durability holds provided the
run sets at most `capacity` distinct full keys, so that no eviction
can occur during the run or the replay.  Then every key live in the
cache whose expiry is absent or strictly later than the recovery
instant `T` is returned by `get` on the recovered store with the value
it held — which is also the value of the last `SET` record for it in
the WAL (its last-set value).  LRU order is not claimed. -/
theorem claim_C1_round_trip (cap : Nat) (ops : List StoreOp) (T : Int)
    (hcard : (ops.filterMap opSetKey).toFinset.card ≤ cap) :
    ∀ k n, cacheLookup (runOps (freshStore cap) ops).cache k = some n →
      nodeLiveStrict n T →
      (storeGet (recoverStore cap (runOps (freshStore cap) ops).wal T) k none T).1
        = some n.value ∧
      walLastSetValue (runOps (freshStore cap) ops).wal k = some n.value := by
  have hkeys : walSetKeys (runOps (freshStore cap) ops).wal = ops.filterMap opSetKey := by
    rw [walSetKeys_runOps]
    rfl
  have hinv := recoverInv_runOps T cap ops (by rw [hkeys]; exact hcard)
  obtain ⟨hcap, hnd, hsub, hrel, hlast⟩ := hinv
  intro k n hlook hlive
  obtain ⟨n', hn', hv', he'⟩ := hrel k n hlook hlive
  constructor
  · rw [storeGet_fst]
    rw [show (recoverStore cap (runOps (freshStore cap) ops).wal T).cache
        = replayWal (runOps (freshStore cap) ops).wal T cap from rfl]
    rw [show makeNamespacedKey none k = k from rfl]
    rw [cacheGet_fst, hn']
    have hnotexp : isExpired n' T = false := by
      rcases hlive with h | ⟨e, he, hTe⟩
      · unfold isExpired
        rw [he', h]
      · unfold isExpired
        rw [he', he]
        simp only [decide_eq_false_iff_not]
        omega
    simp [hnotexp, hv']
  · rw [hlast k n hlook]

/-- Witness for the amended C1: one set, recovery, get returns the
value. -/
theorem claim_C1_witness :
    (storeGet (recoverStore 1 (runOps (freshStore 1)
        [StoreOp.set "a" "1" none none 0]).wal 5) "a" none 5).1 = some "1" :=
  (claim_C1_round_trip 1 [StoreOp.set "a" "1" none none 0] 5 (by decide)
    "a" ⟨"a", "1", none, 0⟩ (by decide) (Or.inl rfl)).1
